import Mathlib

/-!
Verification of the Huffman coding core of the `huffman` repository
(`src/huffman_tree/bits.rs`, `src/huffman_tree/huffman_node.rs`,
`src/huffman_tree/huffman_tree.rs`).

The Rust code is shallowly embedded as executable Lean functions:

* `Bits` mirrors the Rust `Bits` struct (a growable vector of bits);
  `Bits.add`, `Bits.append`, `Bits.len` mirror the methods.
* `Node` mirrors the Rust `Node` struct: two optional children and an
  optional character value (`Rc` sharing is irrelevant for the functional
  behaviour, the tree is immutable once built).
* Hash maps (`FnvHashMap`) are modelled as association lists in insertion
  order; the FNV iteration order is unspecified in Rust, and insertion
  order is one admissible concretization.  All keys end up distinct, so
  none of the verified statements depends on this choice.
* `Vec::sort_unstable_by_key` is modelled by `List.insertionSort` on the
  weight key: the unstable sort promises some ordering that is sorted by
  weight, and insertion sort is one admissible concretization.
* Rust `Result<T>` becomes `Except HuffError T`.  A Rust panic (index out
  of bounds on `table[0]`, `Option::unwrap` on `None`) is modelled by the
  distinguished outcome `HuffError.crash`, kept separate from the
  `anyhow!` message errors the code returns deliberately.
* The `while table.len() > 1` loop of `HuffmanTree::new` and the loop of
  `slice::binary_search_by` are translated with an explicit fuel
  argument that provably suffices (the table length, resp. the width of
  the search interval), so that every definition stays executable by the
  kernel.
-/

namespace Huffman

/-- A collection of individual bits (Rust struct `Bits`). -/
structure Bits where
  collection : List Bool
deriving DecidableEq, Repr

/-- Constructs an empty collection of bits (Rust `Bits::new`). -/
def Bits.new : Bits := ⟨[]⟩

/-- Adds a single bit to the end of this collection (Rust `Bits::add`,
`self.collection.push(bit)`). -/
def Bits.add (b : Bits) (bit : Bool) : Bits := ⟨b.collection ++ [bit]⟩

/-- Append another Bits object to this one (Rust `Bits::append`:
`for bit in other.collection.iter() { self.add(*bit) }`). -/
def Bits.append (b other : Bits) : Bits :=
  other.collection.foldl (fun acc bit => acc.add bit) b

/-- Get the number of bits in the collection (Rust `Bits::len`). -/
def Bits.len (b : Bits) : Nat := b.collection.length

/-- A node in a Huffman tree (Rust struct `Node`): optional left and right
children and an optional character value. -/
inductive Node where
  | mk (left_child : Option Node) (right_child : Option Node) (value : Option Char)

/-- Constructs a new parent node (Rust `Node::new_parent`). -/
def Node.new_parent (left right : Node) : Node := .mk (some left) (some right) none

/-- Constructs a new leaf node (Rust `Node::new_leaf`). -/
def Node.new_leaf (character : Char) : Node := .mk none none (some character)

/-- Outcome of a fallible Rust operation: either an `anyhow!` error with its
message, or a panic (index out of bounds / `unwrap` on `None`), which the
Rust code never returns as a value but which aborts the program. -/
inductive HuffError where
  | message (msg : String)
  | crash
deriving DecidableEq, Repr

/-- The `anyhow!` message produced by `HuffmanTree::build_tree` when fewer
than two nodes are available (the spec's InsufficientNodes error). -/
def insufficientNodesMsg : String := "Attempt to build tree without two nodes to combine"

/-- The `anyhow!`/`context` message produced by `HuffmanTree::encode_character`
when a character is missing (the spec's SymbolNotFound error). -/
def symbolNotFoundMsg : String := "Character not found in lookup table"

/-- Overwriting insert of a hash map modelled as an association list in
insertion order (`HashMap::insert`): replace the value if the key is
present, otherwise add the new binding at the end. -/
def hmInsert {β : Type} (t : List (Char × β)) (k : Char) (v : β) : List (Char × β) :=
  if (t.find? (fun e => e.1 == k)).isSome then
    t.map (fun e => if e.1 == k then (k, v) else e)
  else t ++ [(k, v)]

/-- Lookup in a hash map modelled as an association list (`HashMap::get`). -/
def alookup {β : Type} (t : List (Char × β)) (k : Char) : Option β :=
  (t.find? (fun e => e.1 == k)).map (fun e => e.2)

/-- Generates a list of letter frequencies (Rust free function
`get_letter_frequencies` of `huffman_tree.rs`): one pass over the string;
an existing entry is incremented via `get_mut`, a missing one is inserted
with count 1. -/
def get_letter_frequencies (string : List Char) : List (Char × Nat) :=
  string.foldl (fun frequencies character =>
    if (frequencies.find? (fun e => e.1 == character)).isSome then
      frequencies.map (fun e => if e.1 == character then (e.1, e.2 + 1) else e)
    else frequencies ++ [(character, 1)]) []

/-- A table of weighted nodes (Rust `type NodeTable = Vec<(usize, Rc<Node>)>`). -/
abbrev NodeTable := List (Nat × Node)

/-- Traverse a subtree and extract its data into a lookup table (Rust
`HuffmanTree::traverse` with `HuffmanTree::traverse_child` inlined): a node
carrying a value is recorded with the accumulated code; otherwise the
children present are visited, left with an added `false` bit first, then
right with an added `true` bit. -/
def traverse : Node → List (Char × Bits) → Bits → List (Char × Bits)
  | .mk _ _ (some value), table, code => hmInsert table value code
  | .mk none none none, table, _ => table
  | .mk (some l) none none, table, code => traverse l table (code.add false)
  | .mk none (some r) none, table, code => traverse r table (code.add true)
  | .mk (some l) (some r) none, table, code =>
      traverse r (traverse l table (code.add false)) (code.add true)

/-- The pure insertion sequence performed by `traverse`: the list of
(character, code) pairs in the order `traverse` inserts them. -/
def paths : Node → Bits → List (Char × Bits)
  | .mk _ _ (some value), code => [(value, code)]
  | .mk none none none, _ => []
  | .mk (some l) none none, code => paths l (code.add false)
  | .mk none (some r) none, code => paths r (code.add true)
  | .mk (some l) (some r) none, code =>
      paths l (code.add false) ++ paths r (code.add true)

/-- The characters stored in (the traversable part of) a node, in traversal
order. -/
def Node.chars : Node → List Char
  | .mk _ _ (some value) => [value]
  | .mk none none none => []
  | .mk (some l) none none => l.chars
  | .mk none (some r) none => r.chars
  | .mk (some l) (some r) none => l.chars ++ r.chars

/-- One round of Rust `slice::binary_search_by` (on the list of weights,
searching for `b`), with explicit fuel; the fuel `right - left` provably
suffices, and each iteration halves the interval exactly as the Rust loop
does: `mid = left + (right - left) / 2`, `Less` moves `left` past `mid`,
`Greater` moves `right` to `mid`, equality returns `Ok(mid)`. -/
def bs_loop (ws : List Nat) (b : Nat) : Nat → Nat → Nat → Nat ⊕ Nat
  | 0, left, _ => Sum.inr left
  | fuel + 1, left, right =>
    if left < right then
      if ws.getD (left + (right - left) / 2) 0 < b then
        bs_loop ws b fuel (left + (right - left) / 2 + 1) right
      else if b < ws.getD (left + (right - left) / 2) 0 then
        bs_loop ws b fuel left (left + (right - left) / 2)
      else Sum.inl (left + (right - left) / 2)
    else Sum.inr left

/-- Rust `table.binary_search_by_key(&num, |(n, _)| *n)`. -/
def binary_search_by_key (table : NodeTable) (num : Nat) : Nat ⊕ Nat :=
  let ws := (List.map (fun e => e.1) table : List Nat)
  bs_loop ws num ws.length 0 ws.length

/-- Finds a spot to insert an entry into a node table (Rust
`HuffmanTree::insert_table_entry`): insert at the position reported by the
binary search, in both the `Ok` and the `Err` case. -/
def insert_table_entry (table : NodeTable) (num : Nat) (node : Node) : NodeTable :=
  match binary_search_by_key table num with
  | Sum.inl pos => List.insertIdx pos (num, node) table
  | Sum.inr pos => List.insertIdx pos (num, node) table

/-- Runs one step of building the tree (Rust `HuffmanTree::build_tree`):
with fewer than two nodes this is an error; otherwise the two front
(lowest-weight) entries are removed, combined under a new parent whose
weight is the sum, and the result is inserted back in order. -/
def build_tree (table : NodeTable) : Except HuffError NodeTable :=
  match table with
  | (n1, left) :: (n2, right) :: rest =>
      let num := n1 + n2
      let node := Node.new_parent left right
      .ok (insert_table_entry rest num node)
  | _ => .error (.message insufficientNodesMsg)

/-- The successful body of one `build_tree` step as a total function (used
to state invariants of the construction loop); on tables with fewer than
two entries it is the identity. -/
def mergeStep : NodeTable → NodeTable
  | (n1, left) :: (n2, right) :: rest =>
      insert_table_entry rest (n1 + n2) (Node.new_parent left right)
  | table => table

/-- The `while table.len() > 1 { Self::build_tree(&mut table)?; }` loop of
`HuffmanTree::new`, with explicit fuel; each iteration shortens the table
by one, so fuel `table.length` provably suffices. -/
def build_loop : Nat → NodeTable → Except HuffError NodeTable
  | 0, table => .ok table
  | fuel + 1, table =>
    if 1 < List.length table then
      match build_tree table with
      | .ok t => build_loop fuel t
      | .error e => .error e
    else .ok table

/-- The construction loop run with sufficient fuel. -/
def run_build_loop (table : NodeTable) : Except HuffError NodeTable :=
  build_loop (List.length table) table

/-- Initializes a sorted table of leaf nodes from the character frequencies
(Rust `HuffmanTree::init_table`): sort the entries by the weight key
(`sort_unstable_by_key(|e| e.1)`) and turn each into a weighted leaf. -/
def init_table (frequencies : List (Char × Nat)) : NodeTable :=
  let table := List.insertionSort (fun a b => a.2 ≤ b.2) frequencies
  table.map (fun e => (e.2, Node.new_leaf e.1))

/-- The `table.iter().max_by_key(|(c, _)| u32::from(**c))` step of
`convert_table`: the key with the largest code point (`max_by_key` keeps
the last maximum, hence `≤` favouring the later element), or `none` for an
empty map. -/
def maxKey {β : Type} (table : List (Char × β)) : Option Char :=
  table.foldl (fun acc e =>
    match acc with
    | none => some e.1
    | some m => if m.toNat ≤ e.1.toNat then some e.1 else some m) none

/-- Converts the hashmap table to a dense `Vec<Option<Bits>>` indexed by
code point (Rust `HuffmanTree::convert_table`): a vector of `None` up to
the largest key, then one write per entry (every written index is at most
the maximal key, so the write is always in bounds).  The `unwrap` on the
maximum of an empty map is a panic, modelled by `crash`. -/
def convert_table (table : List (Char × Bits)) : Except HuffError (List (Option Bits)) :=
  match maxKey table with
  | none => .error .crash
  | some max_char =>
    let output_table := List.replicate (max_char.toNat + 1) (Option.none : Option Bits)
    .ok (table.foldl (fun out e => out.set e.1.toNat (some e.2)) output_table)

/-- Construct a new Huffman tree from example text (Rust
`HuffmanTree::new`): count frequencies, build the sorted leaf table, merge
until at most one entry remains, then traverse the root `table[0]` (an
out-of-bounds panic when the table is empty, modelled by `crash`) and
convert the code map to the dense lookup table. -/
def HuffmanTree.new (example_text : List Char) : Except HuffError (List (Option Bits)) :=
  let frequencies := get_letter_frequencies example_text
  let table := init_table frequencies
  match run_build_loop table with
  | .error e => .error e
  | .ok table =>
    match table.head? with
    | none => .error .crash
    | some (_, tree) =>
      let lookup_table := traverse tree [] Bits.new
      convert_table lookup_table

/-- Encodes a single character (Rust `HuffmanTree::encode_character`):
index the dense table by the code point; a missing slot (out of range via
`Vec::get`, or an empty `Option` via `context`) is the SymbolNotFound
error, whose message does not mention the character. -/
def encode_character (lookup_table : List (Option Bits)) (character : Char) : Except HuffError Bits :=
  let index := character.toNat
  match lookup_table.get? index with
  | some res =>
    match res with
    | some bits => .ok bits
    | none => .error (.message symbolNotFoundMsg)
  | none => .error (.message symbolNotFoundMsg)

/-- The loop of Rust `HuffmanTree::encode`, accumulating into
`encoded_string` and propagating the first failure. -/
def encode_loop (lookup_table : List (Option Bits)) : List Char → Bits → Except HuffError Bits
  | [], encoded_string => .ok encoded_string
  | character :: rest, encoded_string =>
    match encode_character lookup_table character with
    | .ok encoded_character => encode_loop lookup_table rest (encoded_string.append encoded_character)
    | .error e => .error e

/-- Encodes a string using the lookup table (Rust `HuffmanTree::encode`). -/
def encode (lookup_table : List (Option Bits)) (string : List Char) : Except HuffError Bits :=
  encode_loop lookup_table string Bits.new

/-- The code stored for a character in the dense lookup table, if any
(the read that `encode_character` performs, as a partial lookup). -/
def lookupGet (lookup_table : List (Option Bits)) (character : Char) : Option Bits :=
  match lookup_table.get? character.toNat with
  | some (some bits) => some bits
  | _ => none

/-- One list of booleans is a prefix of another. -/
def IsPref (a b : List Bool) : Prop := ∃ t, a ++ t = b

instance (a b : List Bool) : Decidable (IsPref a b) :=
  decidable_of_iff (b.take a.length = a) (by
    constructor
    · intro h
      refine ⟨b.drop a.length, ?_⟩
      have h2 := List.take_append_drop a.length b
      rwa [h] at h2
    · rintro ⟨t, rfl⟩
      exact List.take_left a t)

/-- The step function of the `get_letter_frequencies` fold. -/
def freqStep (frequencies : List (Char × Nat)) (character : Char) : List (Char × Nat) :=
  if (frequencies.find? (fun e => e.1 == character)).isSome then
    frequencies.map (fun e => if e.1 == character then (e.1, e.2 + 1) else e)
  else frequencies ++ [(character, 1)]

/-- Distinct keys, as a pairwise property. -/
def KeysDistinct {β : Type} (t : List (Char × β)) : Prop :=
  t.Pairwise (fun e1 e2 => e1.1 ≠ e2.1)

/-- The insertion position carried by either constructor of the binary
search result (the Rust `match` inserts at the reported position in both
the `Ok` and the `Err` case). -/
def bsPos : Nat ⊕ Nat → Nat
  | Sum.inl p => p
  | Sum.inr p => p

/-- The weight column of a node table. -/
def weights (table : NodeTable) : List Nat := table.map (fun e => e.1)

/-- The WorkingSet invariant: the table is sorted ascending by weight. -/
def TableSorted (table : NodeTable) : Prop := List.Sorted (· ≤ ·) (weights table)

instance : IsTotal (Char × Nat) (fun a b : Char × Nat => a.2 ≤ b.2) :=
  ⟨fun a b => Nat.le_total a.2 b.2⟩

instance : IsTrans (Char × Nat) (fun a b : Char × Nat => a.2 ≤ b.2) :=
  ⟨fun _ _ _ h1 h2 => le_trans h1 h2⟩

/-- The shape of every node the construction ever creates: a leaf
(`Node::new_leaf`) or a parent of two well-formed nodes
(`Node::new_parent`). -/
inductive WFNode : Node → Prop where
  | leaf (c : Char) : WFNode (Node.new_leaf c)
  | parent {l r : Node} : WFNode l → WFNode r → WFNode (Node.new_parent l r)

/-- Mutual prefix-incomparability of two table entries. -/
def PrefFree (e1 e2 : Char × Bits) : Prop :=
  ¬IsPref e1.2.collection e2.2.collection ∧ ¬IsPref e2.2.collection e1.2.collection

/-- A node occurs at a given structural depth inside another node. -/
inductive OccAt : Node → Nat → Node → Prop where
  | here (n : Node) : OccAt n 0 n
  | inLeft {l : Node} {r : Option Node} {v : Option Char} {d : Nat} {x : Node} :
      OccAt l d x → OccAt (.mk (some l) r v) (d + 1) x
  | inRight {l : Option Node} {r : Node} {v : Option Char} {d : Nat} {x : Node} :
      OccAt r d x → OccAt (.mk l (some r) v) (d + 1) x

/-- The node table after `k` merge steps. -/
def tableAt (T0 : NodeTable) (k : Nat) : NodeTable := mergeStep^[k] T0

/-- The final table (for a nonempty start, the singleton root entry). -/
def finalTable (T0 : NodeTable) : NodeTable := tableAt T0 T0.length

/-- A weight lower bound on all entries of a table. -/
def LB (T : NodeTable) (b : Nat) : Prop := ∀ e ∈ T, b ≤ e.1

/-- The total weight of a table. -/
def totalW (T : NodeTable) : Nat := (weights T).sum

/-- The structural invariant of the WorkingSet: every node is well formed
and no character appears in two places. -/
def TableOK (T : NodeTable) : Prop :=
  (∀ e ∈ T, WFNode e.2) ∧ ((T.map (fun e => e.2.chars)).flatten).Nodup

/-! ### Bits lemmas -/

theorem Bits.foldl_add_collection (bs : List Bool) :
    ∀ acc : Bits, (bs.foldl (fun acc bit => acc.add bit) acc).collection =
      acc.collection ++ bs := by
  induction bs with
  | nil => intro acc; simp
  | cons b bs ih =>
    intro acc
    rw [List.foldl_cons, ih]
    simp [Bits.add]

theorem Bits.append_collection (a b : Bits) :
    (a.append b).collection = a.collection ++ b.collection := by
  simp [Bits.append, Bits.foldl_add_collection]

theorem Bits.len_append (a b : Bits) : (a.append b).len = a.len + b.len := by
  simp [Bits.len, Bits.append_collection]

/-! ### Frequency counting lemmas -/

theorem get_letter_frequencies_eq_foldl (s : List Char) :
    get_letter_frequencies s = s.foldl freqStep [] := rfl

theorem alookup_nil {β : Type} (c : Char) : alookup ([] : List (Char × β)) c = none := rfl

theorem alookup_cons {β : Type} (e : Char × β) (t : List (Char × β)) (c : Char) :
    alookup (e :: t) c = if e.1 = c then some e.2 else alookup t c := by
  by_cases h : e.1 = c
  · rw [alookup, @List.find?_cons_of_pos _ (fun x => x.1 == c) e t (by simp [h]), if_pos h]
    rfl
  · rw [alookup, @List.find?_cons_of_neg _ (fun x => x.1 == c) e t (by simp [h]), if_neg h]
    rfl

theorem bump_fst (c : Char) (e : Char × Nat) :
    (if e.1 == c then (e.1, e.2 + 1) else e).1 = e.1 := by
  by_cases h : e.1 = c <;> simp [h]

theorem alookup_map_bump (t : List (Char × Nat)) (c c' : Char) :
    alookup (t.map (fun e => if e.1 == c then (e.1, e.2 + 1) else e)) c' =
      if c' = c then (alookup t c').map (fun k => k + 1) else alookup t c' := by
  induction t with
  | nil => by_cases h : c' = c <;> simp [alookup, h]
  | cons e t ih =>
    rw [List.map_cons, alookup_cons, alookup_cons, ih, bump_fst]
    by_cases he : e.1 = c' <;> by_cases hcc : c' = c
    · have hec : (e.1 == c) = true := by simp [he, hcc]
      simp [he, hcc, hec]
    · have hec : (e.1 == c) = false := by rw [he]; exact beq_false_of_ne hcc
      simp [he, hcc, hec]
    · have hec : e.1 ≠ c := by rw [← hcc]; exact he
      simp [he, hcc, hec]
    · simp [he, hcc]

theorem alookup_append_single {β : Type} (t : List (Char × β)) (c c' : Char) (v : β) :
    alookup (t ++ [(c, v)]) c' =
      (alookup t c').or (if c' = c then some v else none) := by
  induction t with
  | nil =>
    by_cases h : c' = c
    · simp [alookup_cons, alookup, h]
    · simp [alookup_cons, alookup, h, Ne.symm h]
  | cons e t ih =>
    rw [List.cons_append, alookup_cons, alookup_cons, ih]
    by_cases h : e.1 = c' <;> simp [h]

theorem alookup_isSome_iff_find? (t : List (Char × Nat)) (c : Char) :
    (alookup t c).isSome = (List.find? (fun e => e.1 == c) t).isSome := by
  rw [alookup]
  cases List.find? (fun e => e.1 == c) t <;> simp

theorem alookup_freqStep_self (t : List (Char × Nat)) (c : Char) :
    alookup (freqStep t c) c = some ((alookup t c).getD 0 + 1) := by
  unfold freqStep
  by_cases hs : (List.find? (fun e => e.1 == c) t).isSome
  · rw [if_pos hs, alookup_map_bump, if_pos rfl]
    have : (alookup t c).isSome := by rw [alookup_isSome_iff_find?]; exact hs
    rcases Option.isSome_iff_exists.mp this with ⟨k, hk⟩
    simp [hk]
  · rw [if_neg hs, alookup_append_single, if_pos rfl]
    have : ¬(alookup t c).isSome := by rw [alookup_isSome_iff_find?]; exact hs
    have hnone : alookup t c = none := Option.not_isSome_iff_eq_none.mp this
    simp [hnone]

theorem alookup_freqStep_other (t : List (Char × Nat)) (c c' : Char) (h : c' ≠ c) :
    alookup (freqStep t c) c' = alookup t c' := by
  unfold freqStep
  by_cases hs : (List.find? (fun e => e.1 == c) t).isSome
  · rw [if_pos hs, alookup_map_bump, if_neg h]
  · rw [if_neg hs, alookup_append_single, if_neg h]
    cases alookup t c' <;> simp

theorem foldl_freqStep_lookup (s : List Char) :
    ∀ (acc : List (Char × Nat)) (c : Char),
      alookup (s.foldl freqStep acc) c =
        match alookup acc c with
        | some k => some (k + s.count c)
        | none => if c ∈ s then some (s.count c) else none := by
  induction s with
  | nil =>
    intro acc c
    cases h : alookup acc c <;> simp [h]
  | cons a s ih =>
    intro acc c
    rw [List.foldl_cons]
    by_cases hca : c = a
    · subst hca
      rw [ih (freqStep acc c) c, alookup_freqStep_self]
      cases h : alookup acc c <;>
        simp [h, List.count_cons, Nat.add_comm, Nat.add_assoc, Nat.add_left_comm]
    · rw [ih (freqStep acc a) c, alookup_freqStep_other acc a c hca]
      have hcount : (a :: s).count c = s.count c := by
        simp [List.count_cons, beq_false_of_ne (Ne.symm hca)]
      have hmem : c ∈ a :: s ↔ c ∈ s := by simp [List.mem_cons, hca]
      cases h : alookup acc c <;> simp [h, hcount, hmem]

/-- Characterization of the frequency table: present exactly for the
characters of the input, with the occurrence count as weight. -/
theorem glf_lookup (s : List Char) (c : Char) :
    alookup (get_letter_frequencies s) c =
      if c ∈ s then some (s.count c) else none := by
  rw [get_letter_frequencies_eq_foldl, foldl_freqStep_lookup s [] c]
  simp [alookup]

theorem alookup_mem {β : Type} {t : List (Char × β)} {c : Char} {v : β}
    (h : alookup t c = some v) : (c, v) ∈ t := by
  rcases Option.map_eq_some'.mp h with ⟨e, he, hev⟩
  have h1 := List.find?_some he
  have h2 := List.mem_of_find?_eq_some he
  have : e.1 = c := by simpa using h1
  have : e = (c, v) := by
    cases e; simp_all
  rwa [this] at h2

theorem glf_mem {s : List Char} {c : Char} (h : c ∈ s) :
    (c, s.count c) ∈ get_letter_frequencies s :=
  alookup_mem (by rw [glf_lookup, if_pos h])

theorem keysDistinct_freqStep {t : List (Char × Nat)} (c : Char)
    (h : KeysDistinct t) : KeysDistinct (freqStep t c) := by
  unfold freqStep
  by_cases hs : (List.find? (fun e => e.1 == c) t).isSome
  · rw [if_pos hs]
    refine h.map ?_ ?_
    intro e1 e2 hne
    simp only [bump_fst]
    exact hne
  · rw [if_neg hs]
    rw [KeysDistinct, List.pairwise_append]
    refine ⟨h, List.pairwise_singleton _ _, ?_⟩
    intro a ha b hb
    have hb' : b = (c, 1) := by simpa using hb
    subst hb'
    have hnone : List.find? (fun e => e.1 == c) t = none := by
      cases hfind : List.find? (fun e => e.1 == c) t
      · rfl
      · rw [hfind] at hs; simp at hs
    have := List.find?_eq_none.mp hnone a ha
    simpa using this

theorem glf_keysDistinct (s : List Char) : KeysDistinct (get_letter_frequencies s) := by
  rw [get_letter_frequencies_eq_foldl]
  have : ∀ (acc : List (Char × Nat)), KeysDistinct acc →
      KeysDistinct (s.foldl freqStep acc) := by
    induction s with
    | nil => intro acc h; exact h
    | cons a s ih =>
      intro acc h
      exact ih _ (keysDistinct_freqStep a h)
  exact this [] List.Pairwise.nil

theorem alookup_of_mem_of_keysDistinct {β : Type} {t : List (Char × β)} {c : Char} {v : β}
    (hd : KeysDistinct t) (h : (c, v) ∈ t) : alookup t c = some v := by
  induction t with
  | nil => cases h
  | cons e t ih =>
    rcases List.mem_cons.mp h with he | ht
    · subst he
      simp [alookup, List.find?_cons_of_pos]
    · have hne : e.1 ≠ c := by
        have := (List.pairwise_cons.mp hd).1 (c, v) ht
        simpa using this
      rw [alookup, List.find?_cons_of_neg _ (by simp [beq_false_of_ne hne])]
      exact ih (List.pairwise_cons.mp hd).2 ht

theorem glf_count_pos {s : List Char} {c : Char} {k : Nat}
    (h : (c, k) ∈ get_letter_frequencies s) : 0 < k ∧ k = s.count c ∧ c ∈ s := by
  have hl := alookup_of_mem_of_keysDistinct (glf_keysDistinct s) h
  rw [glf_lookup] at hl
  by_cases hc : c ∈ s
  · rw [if_pos hc] at hl
    have hk : k = s.count c := by simpa using hl.symm
    exact ⟨hk ▸ List.count_pos_iff.mpr hc, hk, hc⟩
  · rw [if_neg hc] at hl
    cases hl

/-! ### Binary search and sorted insertion -/

theorem insert_table_entry_eq (table : NodeTable) (num : Nat) (node : Node) :
    insert_table_entry table num node =
      List.insertIdx (bsPos (binary_search_by_key table num)) (num, node) table := by
  unfold insert_table_entry
  cases binary_search_by_key table num <;> rfl

theorem sorted_getD_le {ws : List Nat} (h : List.Sorted (· ≤ ·) ws) {i j : Nat}
    (hij : i ≤ j) (hj : j < ws.length) : ws.getD i 0 ≤ ws.getD j 0 := by
  have hi : i < ws.length := lt_of_le_of_lt hij hj
  rw [List.getD_eq_getElem ws 0 hi, List.getD_eq_getElem ws 0 hj]
  rcases Nat.lt_or_ge i j with hlt | hge
  · have := @List.Sorted.rel_get_of_lt Nat (· ≤ ·) ws h ⟨i, hi⟩ ⟨j, hj⟩ (by simpa using hlt)
    simpa using this
  · have : i = j := le_antisymm hij hge
    subst this
    exact le_refl _

theorem bs_loop_pos_bounds (ws : List Nat) (b : Nat) :
    ∀ (fuel left right : Nat), left ≤ right →
      left ≤ bsPos (bs_loop ws b fuel left right) ∧
      bsPos (bs_loop ws b fuel left right) ≤ right := by
  intro fuel
  induction fuel with
  | zero =>
    intro left right hlr
    simpa [bs_loop, bsPos] using hlr
  | succ fuel ih =>
    intro left right hlr
    rw [bs_loop]
    by_cases hlt : left < right
    · rw [if_pos hlt]
      by_cases h1 : ws.getD (left + (right - left) / 2) 0 < b
      · rw [if_pos h1]
        have := ih (left + (right - left) / 2 + 1) right (by omega)
        omega
      · rw [if_neg h1]
        by_cases h2 : b < ws.getD (left + (right - left) / 2) 0
        · rw [if_pos h2]
          have := ih left (left + (right - left) / 2) (by omega)
          omega
        · rw [if_neg h2]
          simp only [bsPos]
          omega
    · rw [if_neg hlt]
      simpa [bsPos] using hlr

theorem bs_loop_spec (ws : List Nat) (b : Nat) (hs : List.Sorted (· ≤ ·) ws) :
    ∀ (fuel left right : Nat), right - left ≤ fuel → left ≤ right → right ≤ ws.length →
      (∀ i, i < left → ws.getD i 0 ≤ b) →
      (∀ i, right ≤ i → i < ws.length → b ≤ ws.getD i 0) →
      (∀ i, i < bsPos (bs_loop ws b fuel left right) → ws.getD i 0 ≤ b) ∧
      (∀ i, bsPos (bs_loop ws b fuel left right) ≤ i → i < ws.length → b ≤ ws.getD i 0) := by
  intro fuel
  induction fuel with
  | zero =>
    intro left right hfuel hlr hrlen hA hB
    have heq : left = right := by omega
    subst heq
    simp only [bs_loop, bsPos]
    exact ⟨hA, fun i hi => hB i hi⟩
  | succ fuel ih =>
    intro left right hfuel hlr hrlen hA hB
    rw [bs_loop]
    by_cases hlt : left < right
    · rw [if_pos hlt]
      have hmlt : left + (right - left) / 2 < right := by omega
      have hmlen : left + (right - left) / 2 < ws.length := lt_of_lt_of_le hmlt hrlen
      by_cases h1 : ws.getD (left + (right - left) / 2) 0 < b
      · rw [if_pos h1]
        refine ih (left + (right - left) / 2 + 1) right (by omega) (by omega) hrlen ?_ hB
        intro i hi
        exact le_trans (sorted_getD_le hs (by omega) hmlen) (le_of_lt h1)
      · rw [if_neg h1]
        by_cases h2 : b < ws.getD (left + (right - left) / 2) 0
        · rw [if_pos h2]
          refine ih left (left + (right - left) / 2) (by omega) (by omega)
            (le_of_lt hmlen) hA ?_
          intro i hi hilen
          exact le_trans (le_of_lt h2) (sorted_getD_le hs hi hilen)
        · rw [if_neg h2]
          have heq : ws.getD (left + (right - left) / 2) 0 = b := le_antisymm (by omega) (by omega)
          simp only [bsPos]
          constructor
          · intro i hi
            exact le_trans (sorted_getD_le hs (le_of_lt hi) hmlen) (le_of_eq heq)
          · intro i hi hilen
            exact le_trans (le_of_eq heq.symm) (sorted_getD_le hs hi hilen)
    · rw [if_neg hlt]
      have heq : left = right := by omega
      subst heq
      simp only [bsPos]
      exact ⟨hA, fun i hi => hB i hi⟩

theorem binary_search_pos_le (table : NodeTable) (num : Nat) :
    bsPos (binary_search_by_key table num) ≤ table.length := by
  have := (bs_loop_pos_bounds (table.map (fun e => e.1)) num
    (table.map (fun e => e.1)).length 0 (table.map (fun e => e.1)).length
    (Nat.zero_le _)).2
  simpa [binary_search_by_key] using this

theorem binary_search_spec (table : NodeTable) (num : Nat)
    (hs : List.Sorted (· ≤ ·) (table.map (fun e => e.1))) :
    (∀ i, i < bsPos (binary_search_by_key table num) →
      (table.map (fun e => e.1)).getD i 0 ≤ num) ∧
    (∀ i, bsPos (binary_search_by_key table num) ≤ i → i < table.length →
      num ≤ (table.map (fun e => e.1)).getD i 0) := by
  have h := bs_loop_spec (table.map (fun e => e.1)) num hs
    (table.map (fun e => e.1)).length 0 (table.map (fun e => e.1)).length
    (by omega) (Nat.zero_le _) (le_refl _)
    (by intro i hi; cases hi)
    (by intro i hi hilen; omega)
  simpa [binary_search_by_key] using h

/-! ### insertIdx facts -/

theorem insertIdx_eq_take_cons_drop {α : Type} (p : Nat) (a : α) (l : List α)
    (h : p ≤ l.length) :
    List.insertIdx p a l = l.take p ++ a :: l.drop p := by
  induction l generalizing p with
  | nil =>
    have : p = 0 := Nat.le_zero.mp h
    subst this
    rfl
  | cons x xs ih =>
    cases p with
    | zero => rfl
    | succ p =>
      simp only [List.insertIdx_succ_cons, List.take_succ_cons, List.drop_succ_cons,
        List.cons_append]
      rw [ih p (Nat.le_of_succ_le_succ h)]

theorem insertIdx_perm {α : Type} (p : Nat) (a : α) (l : List α) (h : p ≤ l.length) :
    (List.insertIdx p a l).Perm (a :: l) := by
  rw [insertIdx_eq_take_cons_drop p a l h]
  have h1 : (l.take p ++ a :: l.drop p).Perm (a :: (l.take p ++ l.drop p)) :=
    List.perm_middle
  rwa [List.take_append_drop] at h1

theorem mem_take_getD {α : Type} {x : α} {l : List α} {p : Nat} (h : x ∈ l.take p) (d : α) :
    ∃ i, i < p ∧ i < l.length ∧ l.getD i d = x := by
  rcases List.mem_iff_getElem.mp h with ⟨i, hi, hx⟩
  have hlen := List.length_take p l
  have hip : i < p := by omega
  have hil : i < l.length := by omega
  refine ⟨i, hip, hil, ?_⟩
  rw [List.getD_eq_getElem l d hil, ← hx]
  rw [List.getElem_take]

theorem mem_drop_getD {α : Type} {x : α} {l : List α} {p : Nat} (h : x ∈ l.drop p) (d : α) :
    ∃ i, p ≤ i ∧ i < l.length ∧ l.getD i d = x := by
  rcases List.mem_iff_getElem.mp h with ⟨i, hi, hx⟩
  have hlen := List.length_drop p l
  have hil : p + i < l.length := by omega
  refine ⟨p + i, Nat.le_add_right _ _, hil, ?_⟩
  rw [List.getD_eq_getElem l d hil, ← hx]
  rw [List.getElem_drop]

theorem sorted_insertIdx {ws : List Nat} {p b : Nat} (hs : List.Sorted (· ≤ ·) ws)
    (hp : p ≤ ws.length)
    (hA : ∀ i, i < p → ws.getD i 0 ≤ b)
    (hB : ∀ i, p ≤ i → i < ws.length → b ≤ ws.getD i 0) :
    List.Sorted (· ≤ ·) (List.insertIdx p b ws) := by
  rw [insertIdx_eq_take_cons_drop p b ws hp]
  have htake : ∀ x ∈ ws.take p, x ≤ b := by
    intro x hx
    rcases mem_take_getD hx 0 with ⟨i, hip, hil, hgx⟩
    exact hgx ▸ hA i hip
  have hdrop : ∀ y ∈ ws.drop p, b ≤ y := by
    intro y hy
    rcases mem_drop_getD hy 0 with ⟨i, hip, hil, hgy⟩
    exact hgy ▸ hB i hip hil
  show List.Pairwise (· ≤ ·) (ws.take p ++ b :: ws.drop p)
  rw [List.pairwise_append]
  refine ⟨List.Pairwise.sublist (List.take_sublist p ws) hs, ?_, ?_⟩
  · rw [List.pairwise_cons]
    exact ⟨hdrop, List.Pairwise.sublist (List.drop_sublist p ws) hs⟩
  · intro x hx y hy
    rcases List.mem_cons.mp hy with rfl | hy'
    · exact htake x hx
    · exact le_trans (htake x hx) (hdrop y hy')

theorem map_insertIdx {α β : Type} (f : α → β) (p : Nat) (a : α) (l : List α) :
    (List.insertIdx p a l).map f = List.insertIdx p (f a) (l.map f) := by
  induction l generalizing p with
  | nil => cases p <;> rfl
  | cons x xs ih =>
    cases p with
    | zero => rfl
    | succ p => simp only [List.insertIdx_succ_cons, List.map_cons, ih]

/-! ### The merge loop -/

theorem insert_table_entry_length (table : NodeTable) (num : Nat) (node : Node) :
    (insert_table_entry table num node).length = table.length + 1 := by
  rw [insert_table_entry_eq]
  exact List.length_insertIdx _ _ (binary_search_pos_le table num)

theorem insert_table_entry_perm (table : NodeTable) (num : Nat) (node : Node) :
    (insert_table_entry table num node).Perm ((num, node) :: table) := by
  rw [insert_table_entry_eq]
  exact insertIdx_perm _ _ _ (binary_search_pos_le table num)

theorem insert_table_entry_sorted {table : NodeTable} (num : Nat) (node : Node)
    (hs : TableSorted table) : TableSorted (insert_table_entry table num node) := by
  rw [TableSorted, weights, insert_table_entry_eq, map_insertIdx]
  obtain ⟨hA, hB⟩ := binary_search_spec table num hs
  refine sorted_insertIdx hs ?_ hA ?_
  · rw [List.length_map]
    exact binary_search_pos_le table num
  · intro i hi hilen
    rw [List.length_map] at hilen
    exact hB i hi hilen

theorem mergeStep_of_short {table : NodeTable} (h : table.length ≤ 1) :
    mergeStep table = table := by
  match table with
  | [] => rfl
  | [e] => rfl
  | e1 :: e2 :: rest => simp at h

theorem mergeStep_cons_cons (n1 n2 : Nat) (left right : Node) (rest : NodeTable) :
    mergeStep ((n1, left) :: (n2, right) :: rest) =
      insert_table_entry rest (n1 + n2) (Node.new_parent left right) := rfl

theorem mergeStep_length {table : NodeTable} (h : 2 ≤ table.length) :
    (mergeStep table).length = table.length - 1 := by
  match table with
  | (n1, left) :: (n2, right) :: rest =>
    rw [mergeStep_cons_cons, insert_table_entry_length]
    simp

theorem mergeStep_sorted {table : NodeTable} (hs : TableSorted table) :
    TableSorted (mergeStep table) := by
  match table with
  | [] => exact hs
  | [e] => exact hs
  | (n1, left) :: (n2, right) :: rest =>
    rw [mergeStep_cons_cons]
    refine insert_table_entry_sorted _ _ ?_
    have h1 : TableSorted ((n2, right) :: rest) :=
      (List.pairwise_cons.mp hs).2
    exact (List.pairwise_cons.mp h1).2

theorem build_tree_ok {table : NodeTable} (h : 2 ≤ table.length) :
    build_tree table = .ok (mergeStep table) := by
  match table with
  | (n1, left) :: (n2, right) :: rest => rfl

theorem build_tree_error_iff (table : NodeTable) :
    build_tree table = .error (.message insufficientNodesMsg) ↔ table.length < 2 := by
  match table with
  | [] => simp [build_tree]
  | [e] => simp [build_tree]
  | e1 :: e2 :: rest =>
    constructor
    · intro h
      rw [build_tree] at h
      cases h
    · intro h
      simp only [List.length_cons] at h
      omega

theorem build_loop_eq_iterate :
    ∀ (fuel : Nat) (table : NodeTable), build_loop fuel table = .ok (mergeStep^[fuel] table) := by
  intro fuel
  induction fuel with
  | zero => intro table; rfl
  | succ fuel ih =>
    intro table
    rw [build_loop, Function.iterate_succ_apply]
    by_cases h : 1 < table.length
    · rw [if_pos h, build_tree_ok h]
      show build_loop fuel (mergeStep table) = _
      exact ih (mergeStep table)
    · rw [if_neg h]
      have hshort : mergeStep table = table := mergeStep_of_short (by omega)
      rw [hshort, Function.iterate_fixed hshort fuel]

theorem run_build_loop_eq (table : NodeTable) :
    run_build_loop table = .ok (mergeStep^[table.length] table) :=
  build_loop_eq_iterate table.length table

theorem iterate_mergeStep_length (table : NodeTable) (h : 1 ≤ table.length) :
    ∀ k, (mergeStep^[k] table).length = max (table.length - k) 1 := by
  intro k
  induction k generalizing table with
  | zero => simp; omega
  | succ k ih =>
    rw [Function.iterate_succ_apply]
    by_cases h2 : 2 ≤ table.length
    · rw [ih (mergeStep table) (by rw [mergeStep_length h2]; omega), mergeStep_length h2]
      omega
    · have hshort : mergeStep table = table := mergeStep_of_short (by omega)
      rw [hshort, ih table h]
      omega

theorem iterate_mergeStep_sorted {table : NodeTable} (hs : TableSorted table) (k : Nat) :
    TableSorted (mergeStep^[k] table) := by
  induction k generalizing table with
  | zero => exact hs
  | succ k ih => rw [Function.iterate_succ_apply]; exact ih (mergeStep_sorted hs)

theorem init_table_sorted (frequencies : List (Char × Nat)) :
    TableSorted (init_table frequencies) := by
  rw [TableSorted, weights, init_table]
  have hs := List.sorted_insertionSort (fun a b : Char × Nat => a.2 ≤ b.2) frequencies
  rw [List.map_map]
  exact List.Pairwise.map _ (fun a b h => h) hs

/-! ### Well-formed trees, traversal, prefix-freeness -/

theorem paths_new_leaf (c : Char) (code : Bits) :
    paths (Node.new_leaf c) code = [(c, code)] := rfl

theorem paths_new_parent (l r : Node) (code : Bits) :
    paths (Node.new_parent l r) code =
      paths l (code.add false) ++ paths r (code.add true) := rfl

theorem chars_new_leaf (c : Char) : (Node.new_leaf c).chars = [c] := rfl

theorem chars_new_parent (l r : Node) :
    (Node.new_parent l r).chars = l.chars ++ r.chars := rfl

theorem traverse_new_leaf (c : Char) (table : List (Char × Bits)) (code : Bits) :
    traverse (Node.new_leaf c) table code = hmInsert table c code := rfl

theorem traverse_new_parent (l r : Node) (table : List (Char × Bits)) (code : Bits) :
    traverse (Node.new_parent l r) table code =
      traverse r (traverse l table (code.add false)) (code.add true) := rfl

theorem traverse_eq_foldl {n : Node} (hn : WFNode n) :
    ∀ (table : List (Char × Bits)) (code : Bits),
      traverse n table code =
        (paths n code).foldl (fun t e => hmInsert t e.1 e.2) table := by
  induction hn with
  | leaf c => intro table code; rfl
  | parent hl hr ihl ihr =>
    intro table code
    rw [traverse_new_parent, paths_new_parent, List.foldl_append, ← ihl, ← ihr]

theorem IsPref.trans {a b c : List Bool} (h1 : IsPref a b) (h2 : IsPref b c) : IsPref a c := by
  rcases h1 with ⟨t1, rfl⟩
  rcases h2 with ⟨t2, rfl⟩
  exact ⟨t1 ++ t2, (List.append_assoc a t1 t2).symm⟩

theorem isPref_refl (a : List Bool) : IsPref a a := ⟨[], List.append_nil a⟩

theorem isPref_add (code : Bits) (bit : Bool) :
    IsPref code.collection (code.add bit).collection := ⟨[bit], rfl⟩

/-- Two codes extending the same stem by different bits are never in the
prefix relation, whatever comes after. -/
theorem not_isPref_of_differing_extensions {a p q : List Bool} {x y : Bool}
    (hx : IsPref (a ++ [x]) p) (hy : IsPref (a ++ [y]) q) (hxy : x ≠ y) :
    ¬IsPref p q := by
  rcases hx with ⟨t1, rfl⟩
  rcases hy with ⟨t2, rfl⟩
  rintro ⟨t3, h⟩
  have h' : a ++ ([x] ++ (t1 ++ t3)) = a ++ ([y] ++ t2) := by
    simpa [List.append_assoc] using h
  have h2 := List.append_cancel_left h'
  simp only [List.singleton_append, List.cons.injEq] at h2
  exact hxy h2.1

theorem paths_isPref {n : Node} (hn : WFNode n) :
    ∀ (code : Bits) {c : Char} {p : Bits},
      (c, p) ∈ paths n code → IsPref code.collection p.collection := by
  induction hn with
  | leaf c0 =>
    intro code c p hp
    rw [paths_new_leaf] at hp
    rcases List.mem_singleton.mp hp with h
    cases h
    exact isPref_refl _
  | parent hl hr ihl ihr =>
    intro code c p hp
    rw [paths_new_parent] at hp
    rcases List.mem_append.mp hp with h | h
    · exact (isPref_add code false).trans (ihl _ h)
    · exact (isPref_add code true).trans (ihr _ h)

/-- All codes generated by a traversal are pairwise prefix-incomparable. -/
theorem paths_pairwise {n : Node} (hn : WFNode n) :
    ∀ (code : Bits), (paths n code).Pairwise PrefFree := by
  induction hn with
  | leaf c0 =>
    intro code
    rw [paths_new_leaf]
    exact List.pairwise_singleton _ _
  | parent hl hr ihl ihr =>
    intro code
    rw [paths_new_parent, List.pairwise_append]
    refine ⟨ihl _, ihr _, ?_⟩
    intro e1 h1 e2 h2
    have hp1 := paths_isPref hl _ (show (e1.1, e1.2) ∈ _ from h1)
    have hp2 := paths_isPref hr _ (show (e2.1, e2.2) ∈ _ from h2)
    have hb1 : IsPref (code.collection ++ [false]) e1.2.collection := hp1
    have hb2 : IsPref (code.collection ++ [true]) e2.2.collection := hp2
    exact ⟨not_isPref_of_differing_extensions hb1 hb2 (by simp),
      not_isPref_of_differing_extensions hb2 hb1 (by simp)⟩

theorem chars_eq_paths_keys {n : Node} (hn : WFNode n) :
    ∀ code : Bits, (paths n code).map (fun e => e.1) = n.chars := by
  induction hn with
  | leaf c => intro code; rfl
  | parent hl hr ihl ihr =>
    intro code
    rw [paths_new_parent, chars_new_parent, List.map_append, ihl, ihr]

theorem chars_ne_nil {n : Node} (hn : WFNode n) : n.chars ≠ [] := by
  induction hn with
  | leaf c => simp [chars_new_leaf]
  | parent hl hr ihl ihr =>
    rw [chars_new_parent]
    simp only [ne_eq, List.append_eq_nil]
    rintro ⟨h1, -⟩
    exact ihl h1

theorem occAt_left_child {R : Node} {d : Nat} {a b : Node}
    (h : OccAt R d (Node.new_parent a b)) : OccAt R (d + 1) a := by
  generalize hx : Node.new_parent a b = x at h
  induction h with
  | here n => subst hx; exact OccAt.inLeft (OccAt.here a)
  | inLeft h ih => exact OccAt.inLeft (ih hx)
  | inRight h ih => exact OccAt.inRight (ih hx)

theorem occAt_right_child {R : Node} {d : Nat} {a b : Node}
    (h : OccAt R d (Node.new_parent a b)) : OccAt R (d + 1) b := by
  generalize hx : Node.new_parent a b = x at h
  induction h with
  | here n => subst hx; exact OccAt.inRight (OccAt.here b)
  | inLeft h ih => exact OccAt.inLeft (ih hx)
  | inRight h ih => exact OccAt.inRight (ih hx)

theorem occAt_new_leaf {c : Char} {d : Nat} {x : Node}
    (h : OccAt (Node.new_leaf c) d x) : d = 0 ∧ x = Node.new_leaf c := by
  cases h with
  | here n => exact ⟨rfl, rfl⟩

theorem occAt_new_parent {l r : Node} {d : Nat} {x : Node}
    (h : OccAt (Node.new_parent l r) d x) :
    (d = 0 ∧ x = Node.new_parent l r) ∨
    (∃ d', d = d' + 1 ∧ OccAt l d' x) ∨ (∃ d', d = d' + 1 ∧ OccAt r d' x) := by
  cases h with
  | here n => exact Or.inl ⟨rfl, rfl⟩
  | inLeft h => exact Or.inr (Or.inl ⟨_, rfl, h⟩)
  | inRight h => exact Or.inr (Or.inr ⟨_, rfl, h⟩)

theorem occAt_chars_subset {R : Node} (hR : WFNode R) :
    ∀ {d : Nat} {x : Node}, OccAt R d x → ∀ c ∈ x.chars, c ∈ R.chars := by
  induction hR with
  | leaf c0 =>
    intro d x h c hc
    rcases occAt_new_leaf h with ⟨-, rfl⟩
    exact hc
  | parent hl hr ihl ihr =>
    intro d x h c hc
    rcases occAt_new_parent h with ⟨-, rfl⟩ | ⟨d', -, h'⟩ | ⟨d', -, h'⟩
    · exact hc
    · rw [chars_new_parent, List.mem_append]
      exact Or.inl (ihl h' c hc)
    · rw [chars_new_parent, List.mem_append]
      exact Or.inr (ihr h' c hc)

theorem occAt_wf {R : Node} (hR : WFNode R) :
    ∀ {d : Nat} {x : Node}, OccAt R d x → WFNode x := by
  induction hR with
  | leaf c0 =>
    intro d x h
    rcases occAt_new_leaf h with ⟨-, rfl⟩
    exact WFNode.leaf c0
  | parent hl hr ihl ihr =>
    intro d x h
    rcases occAt_new_parent h with ⟨-, rfl⟩ | ⟨d', -, h'⟩ | ⟨d', -, h'⟩
    · exact WFNode.parent hl hr
    · exact ihl h'
    · exact ihr h'

/-- In a tree with no repeated characters, a node with at least one
character occurs at a unique depth. -/
theorem occAt_unique {R : Node} (hR : WFNode R) (hnd : R.chars.Nodup) :
    ∀ {x : Node} {d d' : Nat}, x.chars ≠ [] →
      OccAt R d x → OccAt R d' x → d = d' := by
  induction hR with
  | leaf c0 =>
    intro x d d' hx h1 h2
    rcases occAt_new_leaf h1 with ⟨rfl, -⟩
    rcases occAt_new_leaf h2 with ⟨rfl, -⟩
    rfl
  | parent hl hr ihl ihr =>
    rename_i l r
    intro x d d' hx h1 h2
    rw [chars_new_parent] at hnd
    have hdisj : ∀ c, c ∈ l.chars → c ∈ r.chars → False := by
      intro c hcl hcr
      exact (List.disjoint_of_nodup_append hnd) hcl hcr
    obtain ⟨c0, hc0⟩ : ∃ c0, c0 ∈ x.chars := by
      cases hcs : x.chars with
      | nil => exact absurd hcs hx
      | cons a t => exact ⟨a, hcs ▸ List.mem_cons_self a t⟩
    have hndl : l.chars.Nodup := (List.nodup_append.mp hnd).1
    have hndr : r.chars.Nodup := (List.nodup_append.mp hnd).2.1
    have hcasel : ∀ {e : Nat}, OccAt (Node.new_parent l r) e x →
        (e = 0 ∧ x = Node.new_parent l r) ∨
        (∃ e', e = e' + 1 ∧ OccAt l e' x ∧ c0 ∈ l.chars) ∨
        (∃ e', e = e' + 1 ∧ OccAt r e' x ∧ c0 ∈ r.chars) := by
      intro e he
      rcases occAt_new_parent he with h | ⟨e', he', h⟩ | ⟨e', he', h⟩
      · exact Or.inl h
      · exact Or.inr (Or.inl ⟨e', he', h, occAt_chars_subset hl h c0 hc0⟩)
      · exact Or.inr (Or.inr ⟨e', he', h, occAt_chars_subset hr h c0 hc0⟩)
    rcases hcasel h1 with ⟨rfl, rfl⟩ | ⟨d1, rfl, hx1, hm1⟩ | ⟨d1, rfl, hx1, hm1⟩ <;>
      rcases hcasel h2 with ⟨h20, h2x⟩ | ⟨d2, h2e, hx2, hm2⟩ | ⟨d2, h2e, hx2, hm2⟩
    · exact h20.symm
    · -- the whole tree occurring strictly inside its own left subtree:
      -- impossible, r's characters would have to lie in l's characters
      exfalso
      obtain ⟨cr, hcr⟩ : ∃ cr, cr ∈ r.chars := by
        cases hcs : r.chars with
        | nil => exact absurd hcs (chars_ne_nil hr)
        | cons a t => exact ⟨a, hcs ▸ List.mem_cons_self a t⟩
      have : cr ∈ l.chars := by
        have := occAt_chars_subset hl hx2 cr
        rw [chars_new_parent] at this
        exact this (List.mem_append.mpr (Or.inr hcr))
      exact hdisj cr this hcr
    · exfalso
      obtain ⟨cl, hcl⟩ : ∃ cl, cl ∈ l.chars := by
        cases hcs : l.chars with
        | nil => exact absurd hcs (chars_ne_nil hl)
        | cons a t => exact ⟨a, hcs ▸ List.mem_cons_self a t⟩
      have : cl ∈ r.chars := by
        have := occAt_chars_subset hr hx2 cl
        rw [chars_new_parent] at this
        exact this (List.mem_append.mpr (Or.inl hcl))
      exact hdisj cl hcl this
    · exfalso
      obtain ⟨cr, hcr⟩ : ∃ cr, cr ∈ r.chars := by
        cases hcs : r.chars with
        | nil => exact absurd hcs (chars_ne_nil hr)
        | cons a t => exact ⟨a, hcs ▸ List.mem_cons_self a t⟩
      rw [h2x] at hx1
      have : cr ∈ l.chars := by
        have := occAt_chars_subset hl hx1 cr
        rw [chars_new_parent] at this
        exact this (List.mem_append.mpr (Or.inr hcr))
      exact hdisj cr this hcr
    · rw [h2e]
      rw [ihl hndl hx hx1 hx2]
    · exact absurd hm2 (fun hm2 => hdisj c0 hm1 hm2)
    · exfalso
      obtain ⟨cl, hcl⟩ : ∃ cl, cl ∈ l.chars := by
        cases hcs : l.chars with
        | nil => exact absurd hcs (chars_ne_nil hl)
        | cons a t => exact ⟨a, hcs ▸ List.mem_cons_self a t⟩
      rw [h2x] at hx1
      have : cl ∈ r.chars := by
        have := occAt_chars_subset hr hx1 cl
        rw [chars_new_parent] at this
        exact this (List.mem_append.mpr (Or.inl hcl))
      exact hdisj cl hcl this
    · exact (hdisj c0 hm2 hm1).elim
    · rw [h2e]
      rw [ihr hndr hx hx1 hx2]

/-- Every recorded path points at the leaf of its character, at depth
`code length` below where the traversal started. -/
theorem paths_occAt {n : Node} (hn : WFNode n) :
    ∀ (code : Bits) {c : Char} {p : Bits}, (c, p) ∈ paths n code →
      ∃ d, OccAt n d (Node.new_leaf c) ∧ p.len = code.len + d := by
  induction hn with
  | leaf c0 =>
    intro code c p hp
    rw [paths_new_leaf] at hp
    rcases List.mem_singleton.mp hp with h
    cases h
    exact ⟨0, OccAt.here _, rfl⟩
  | parent hl hr ihl ihr =>
    intro code c p hp
    rw [paths_new_parent] at hp
    rcases List.mem_append.mp hp with h | h
    · rcases ihl _ h with ⟨d, hocc, hlen⟩
      refine ⟨d + 1, OccAt.inLeft hocc, ?_⟩
      have : (code.add false).len = code.len + 1 := by
        simp [Bits.add, Bits.len]
      omega
    · rcases ihr _ h with ⟨d, hocc, hlen⟩
      refine ⟨d + 1, OccAt.inRight hocc, ?_⟩
      have : (code.add true).len = code.len + 1 := by
        simp [Bits.add, Bits.len]
      omega

/-! ### Hash-map folds and the dense lookup table -/

theorem hmInsert_mem {β : Type} {t : List (Char × β)} {k k' : Char} {v v' : β}
    (h : (k, v) ∈ hmInsert t k' v') : (k = k' ∧ v = v') ∨ (k, v) ∈ t := by
  unfold hmInsert at h
  by_cases hs : (t.find? (fun e => e.1 == k')).isSome
  · rw [if_pos hs] at h
    rcases List.mem_map.mp h with ⟨e, he, heq⟩
    by_cases hek : (e.1 == k') = true
    · rw [if_pos hek] at heq
      injection heq with h1 h2
      exact Or.inl ⟨h1.symm, h2.symm⟩
    · rw [if_neg hek] at heq
      subst heq
      exact Or.inr he
  · rw [if_neg hs] at h
    rcases List.mem_append.mp h with h1 | h1
    · exact Or.inr h1
    · have := List.mem_singleton.mp h1
      injection this with h1 h2
      exact Or.inl ⟨h1, h2⟩

theorem foldl_hmInsert_mem {β : Type} {entries : List (Char × β)} :
    ∀ {init : List (Char × β)} {k : Char} {v : β},
      (k, v) ∈ entries.foldl (fun t e => hmInsert t e.1 e.2) init →
      (k, v) ∈ entries ∨ (k, v) ∈ init := by
  induction entries with
  | nil => intro init k v h; exact Or.inr h
  | cons e rest ih =>
    intro init k v h
    rw [List.foldl_cons] at h
    rcases ih h with h1 | h2
    · exact Or.inl (List.mem_cons_of_mem e h1)
    · rcases hmInsert_mem h2 with ⟨hk, hv⟩ | h3
      · subst hk
        subst hv
        exact Or.inl (List.mem_cons.mpr (Or.inl rfl))
      · exact Or.inr h3

theorem alookup_map_overwrite {β : Type} (t : List (Char × β)) (k' : Char) (v' : β) (k : Char) :
    alookup (t.map (fun e => if e.1 == k' then (k', v') else e)) k =
      if k = k' then (alookup t k).map (fun _ => v') else alookup t k := by
  induction t with
  | nil => by_cases h : k = k' <;> simp [alookup, h]
  | cons e t ih =>
    have hfst : (if e.1 == k' then (k', v') else e).1 = e.1 := by
      by_cases h : e.1 = k' <;> simp [h]
    rw [List.map_cons, alookup_cons, alookup_cons, ih, hfst]
    by_cases he : e.1 = k <;> by_cases hkk : k = k'
    · have hek : (e.1 == k') = true := by simp [he, hkk]
      simp [he, hkk, hek]
    · have hek : (e.1 == k') = false := by rw [he]; exact beq_false_of_ne hkk
      simp [he, hkk, hek]
    · have hek : e.1 ≠ k' := by rw [← hkk]; exact he
      simp [he, hkk, hek]
    · simp [he, hkk]

theorem alookup_hmInsert_isSome {β : Type} (t : List (Char × β)) (k' : Char) (v' : β)
    (k : Char) :
    (alookup (hmInsert t k' v') k).isSome ↔ (k = k' ∨ (alookup t k).isSome) := by
  unfold hmInsert
  by_cases hs : (t.find? (fun e => e.1 == k')).isSome
  · rw [if_pos hs, alookup_map_overwrite]
    by_cases hkk : k = k'
    · subst hkk
      have : (alookup t k).isSome := by
        rw [alookup]
        cases h : t.find? (fun e => e.1 == k)
        · rw [h] at hs; cases hs
        · simp
      simp [this]
    · simp [hkk]
  · rw [if_neg hs, alookup_append_single]
    by_cases hkk : k = k'
    · subst hkk
      cases alookup t k <;> simp
    · cases h : alookup t k <;> simp [hkk, h]

theorem foldl_hmInsert_isSome {β : Type} (entries : List (Char × β)) :
    ∀ (init : List (Char × β)) (k : Char),
      (alookup (entries.foldl (fun t e => hmInsert t e.1 e.2) init) k).isSome ↔
      ((∃ e ∈ entries, e.1 = k) ∨ (alookup init k).isSome) := by
  induction entries with
  | nil => intro init k; simp
  | cons e rest ih =>
    intro init k
    rw [List.foldl_cons, ih, alookup_hmInsert_isSome]
    constructor
    · rintro (⟨e', he', hk⟩ | hke | hinit)
      · exact Or.inl ⟨e', List.mem_cons_of_mem e he', hk⟩
      · exact Or.inl ⟨e, List.mem_cons_self _ _, hke.symm⟩
      · exact Or.inr hinit
    · rintro (⟨e', he', hk⟩ | hinit)
      · rcases List.mem_cons.mp he' with rfl | he''
        · exact Or.inr (Or.inl hk.symm)
        · exact Or.inl ⟨e', he'', hk⟩
      · exact Or.inr (Or.inr hinit)

/-! ### `convert_table` facts -/

theorem maxKey_step_ge {β : Type} (tbl : List (Char × β)) :
    ∀ (m0 : Char), ∃ m, tbl.foldl (fun acc e =>
      match acc with
      | none => some e.1
      | some m => if m.toNat ≤ e.1.toNat then some e.1 else some m) (some m0) = some m ∧
      m0.toNat ≤ m.toNat := by
  induction tbl with
  | nil => intro m0; exact ⟨m0, rfl, le_refl _⟩
  | cons e rest ih =>
    intro m0
    rw [List.foldl_cons]
    by_cases h : m0.toNat ≤ e.1.toNat
    · rcases ih e.1 with ⟨m, hm, hle⟩
      refine ⟨m, ?_, le_trans h hle⟩
      simpa [h] using hm
    · rcases ih m0 with ⟨m, hm, hle⟩
      refine ⟨m, ?_, hle⟩
      simpa [h] using hm

theorem maxKey_foldl_ge_mem {β : Type} (tbl : List (Char × β)) :
    ∀ (acc : Option Char) (c : Char) (v : β), (c, v) ∈ tbl →
      ∃ m, tbl.foldl (fun acc e =>
        match acc with
        | none => some e.1
        | some m => if m.toNat ≤ e.1.toNat then some e.1 else some m) acc = some m ∧
        c.toNat ≤ m.toNat := by
  induction tbl with
  | nil => intro acc c v h; cases h
  | cons e rest ih =>
    intro acc c v h
    rw [List.foldl_cons]
    rcases List.mem_cons.mp h with rfl | hrest
    · cases acc with
      | none => exact maxKey_step_ge rest c
      | some m0 =>
        by_cases hle : m0.toNat ≤ c.toNat
        · rcases maxKey_step_ge rest c with ⟨m, hm, hle'⟩
          exact ⟨m, by simpa [hle] using hm, hle'⟩
        · rcases maxKey_step_ge rest m0 with ⟨m, hm, hle'⟩
          exact ⟨m, by simpa [hle] using hm, le_trans (by omega) hle'⟩
    · exact ih _ c v hrest

theorem maxKey_ge {β : Type} {tbl : List (Char × β)} {c : Char} {v : β}
    (h : (c, v) ∈ tbl) : ∃ m, maxKey tbl = some m ∧ c.toNat ≤ m.toNat :=
  maxKey_foldl_ge_mem tbl none c v h

theorem foldl_set_length (tbl : List (Char × Bits)) :
    ∀ init : List (Option Bits),
      (tbl.foldl (fun out e => out.set e.1.toNat (some e.2)) init).length = init.length := by
  induction tbl with
  | nil => intro init; rfl
  | cons e rest ih =>
    intro init
    rw [List.foldl_cons, ih, List.length_set]

theorem foldl_set_inv (tbl : List (Char × Bits)) :
    ∀ (init : List (Option Bits)) (i : Nat) (b : Bits),
      (tbl.foldl (fun out e => out.set e.1.toNat (some e.2)) init).get? i = some (some b) →
      (∃ c, (c, b) ∈ tbl ∧ c.toNat = i) ∨ init.get? i = some (some b) := by
  induction tbl with
  | nil => intro init i b h; exact Or.inr h
  | cons e rest ih =>
    intro init i b h
    rw [List.foldl_cons] at h
    rcases ih _ i b h with ⟨c, hc, hci⟩ | h2
    · exact Or.inl ⟨c, List.mem_cons_of_mem e hc, hci⟩
    · rw [List.get?_eq_getElem?, List.getElem?_set] at h2
      by_cases hei : e.1.toNat = i
      · rw [if_pos hei] at h2
        by_cases hlen : e.1.toNat < init.length
        · rw [if_pos hlen] at h2
          injection h2 with h3
          injection h3 with h4
          exact Or.inl ⟨e.1, by
            refine ⟨?_, hei⟩
            have : e = (e.1, e.2) := by simp
            rw [h4] at this
            rw [← this]  -- hmm
            exact List.mem_cons_self _ _⟩
        · rw [if_neg hlen] at h2
          cases h2
      · rw [if_neg hei] at h2
        rw [← List.get?_eq_getElem?] at h2
        exact Or.inr h2

theorem foldl_set_present (tbl : List (Char × Bits)) :
    ∀ (init : List (Option Bits)) (i : Nat), i < init.length →
      ((∃ c v, (c, v) ∈ tbl ∧ c.toNat = i) ∨ (∃ b, init.get? i = some (some b))) →
      ∃ b, (tbl.foldl (fun out e => out.set e.1.toNat (some e.2)) init).get? i =
        some (some b) := by
  induction tbl with
  | nil =>
    intro init i hi h
    rcases h with ⟨c, v, hc, -⟩ | hb
    · cases hc
    · exact hb
  | cons e rest ih =>
    intro init i hi h
    rw [List.foldl_cons]
    have hlen : i < (init.set e.1.toNat (some e.2)).length := by
      rw [List.length_set]; exact hi
    rcases h with ⟨c, v, hc, hci⟩ | ⟨b, hb⟩
    · rcases List.mem_cons.mp hc with rfl | hrest
      · refine ih _ i hlen (Or.inr ⟨v, ?_⟩)
        rw [List.get?_eq_getElem?, ← hci, List.getElem?_set_self (by rwa [hci])]
      · exact ih _ i hlen (Or.inl ⟨c, v, hrest, hci⟩)
    · by_cases hei : e.1.toNat = i
      · refine ih _ i hlen (Or.inr ⟨e.2, ?_⟩)
        rw [List.get?_eq_getElem?, ← hei, List.getElem?_set_self (by rwa [hei])]
      · refine ih _ i hlen (Or.inr ⟨b, ?_⟩)
        rw [List.get?_eq_getElem?, List.getElem?_set_ne hei, ← List.get?_eq_getElem?]
        exact hb

/-! ### Encoding lemmas -/

theorem encode_character_eq (L : List (Option Bits)) (c : Char) :
    encode_character L c = match lookupGet L c with
      | some bits => .ok bits
      | none => .error (.message symbolNotFoundMsg) := by
  cases h : L[c.toNat]? with
  | none => simp [encode_character, lookupGet, List.get?_eq_getElem?, h]
  | some o => cases o <;> simp [encode_character, lookupGet, List.get?_eq_getElem?, h]

theorem encode_loop_ok {L : List (Option Bits)} {s : List Char}
    (h : ∀ c ∈ s, (lookupGet L c).isSome) :
    ∀ acc : Bits, ∃ b, encode_loop L s acc = .ok b ∧
      b.len = acc.len + (s.map (fun c => ((lookupGet L c).map Bits.len).getD 0)).sum := by
  induction s with
  | nil => intro acc; exact ⟨acc, rfl, by simp⟩
  | cons c rest ih =>
    intro acc
    have hc := h c (List.mem_cons_self c rest)
    rcases Option.isSome_iff_exists.mp hc with ⟨bc, hbc⟩
    have hec : encode_character L c = .ok bc := by rw [encode_character_eq, hbc]
    rcases ih (fun c' hc' => h c' (List.mem_cons_of_mem c hc')) (acc.append bc)
      with ⟨b, hb, hlen⟩
    refine ⟨b, ?_, ?_⟩
    · rw [encode_loop, hec]
      exact hb
    · rw [hlen, Bits.len_append, List.map_cons, List.sum_cons, hbc]
      simp [Nat.add_assoc, Nat.add_comm, Nat.add_left_comm]

theorem encode_loop_err {L : List (Option Bits)} {s : List Char}
    (h : ∃ c ∈ s, lookupGet L c = none) :
    ∀ acc : Bits, encode_loop L s acc = .error (.message symbolNotFoundMsg) := by
  induction s with
  | nil => rcases h with ⟨c, hc, -⟩; cases hc
  | cons c rest ih =>
    intro acc
    cases hlk : lookupGet L c with
    | none =>
      have hec : encode_character L c = .error (.message symbolNotFoundMsg) := by
        rw [encode_character_eq, hlk]
      rw [encode_loop, hec]
    | some bc =>
      have hec : encode_character L c = .ok bc := by rw [encode_character_eq, hlk]
      rw [encode_loop, hec]
      refine ih ?_ _
      rcases h with ⟨c', hc', hnone⟩
      rcases List.mem_cons.mp hc' with rfl | hrest
      · rw [hlk] at hnone; cases hnone
      · exact ⟨c', hrest, hnone⟩

/-! ### The construction process over time

The `while` loop of `HuffmanTree::new` is a sequence of `mergeStep`s.  To
reason about code depths we track the table through time: `tableAt T0 k`
is the WorkingSet after `k` merges.  Every entry is eventually either
removed (merged under a parent) or survives as the root. -/

theorem tableAt_zero (T0 : NodeTable) : tableAt T0 0 = T0 := rfl

theorem tableAt_succ (T0 : NodeTable) (k : Nat) :
    tableAt T0 (k + 1) = mergeStep (tableAt T0 k) :=
  Function.iterate_succ_apply' mergeStep k T0

theorem tableAt_add (T0 : NodeTable) (k j : Nat) :
    tableAt T0 (k + j) = mergeStep^[j] (tableAt T0 k) := by
  rw [tableAt, Nat.add_comm, Function.iterate_add_apply]
  rfl

theorem mem_mergeStep_iff {e0 e1 : Nat × Node} {rest : NodeTable} {x : Nat × Node} :
    x ∈ mergeStep (e0 :: e1 :: rest) ↔
      x = (e0.1 + e1.1, Node.new_parent e0.2 e1.2) ∨ x ∈ rest := by
  have : mergeStep (e0 :: e1 :: rest) =
      insert_table_entry rest (e0.1 + e1.1) (Node.new_parent e0.2 e1.2) := rfl
  rw [this, (insert_table_entry_perm rest _ _).mem_iff, List.mem_cons]

theorem tableAt_sorted {T0 : NodeTable} (hs : TableSorted T0) (k : Nat) :
    TableSorted (tableAt T0 k) := iterate_mergeStep_sorted hs k

theorem sorted_cons_cons {e0 e1 : Nat × Node} {rest : NodeTable}
    (hs : TableSorted (e0 :: e1 :: rest)) :
    e0.1 ≤ e1.1 ∧ ∀ x ∈ rest, e1.1 ≤ x.1 := by
  rw [TableSorted, weights, List.map_cons, List.map_cons, List.sorted_cons] at hs
  obtain ⟨h0, hs1⟩ := hs
  rw [List.sorted_cons] at hs1
  obtain ⟨h1, -⟩ := hs1
  refine ⟨h0 e1.1 (by simp), ?_⟩
  intro x hx
  exact h1 x.1 (List.mem_map_of_mem _ hx)

theorem LB_mergeStep {T : NodeTable} {b : Nat} (h : LB T b) : LB (mergeStep T) b := by
  match T with
  | [] => exact h
  | [e] => exact h
  | e0 :: e1 :: rest =>
    intro x hx
    rcases mem_mergeStep_iff.mp hx with rfl | hx'
    · have := h e0 (List.mem_cons_self _ _)
      simp only []
      omega
    · exact h x (List.mem_cons_of_mem _ (List.mem_cons_of_mem _ hx'))

theorem LB_iterate {T : NodeTable} {b : Nat} (h : LB T b) (j : Nat) :
    LB (mergeStep^[j] T) b := by
  induction j generalizing T with
  | zero => exact h
  | succ j ih =>
    rw [Function.iterate_succ_apply]
    exact ih (LB_mergeStep h)

/-- After a merge, every entry weighs at least the second removed weight. -/
theorem LB_after_merge {e0 e1 : Nat × Node} {rest : NodeTable}
    (hs : TableSorted (e0 :: e1 :: rest)) :
    LB (mergeStep (e0 :: e1 :: rest)) e1.1 := by
  obtain ⟨h01, h1r⟩ := sorted_cons_cons hs
  intro x hx
  rcases mem_mergeStep_iff.mp hx with rfl | hx'
  · simp only []
    omega
  · exact h1r x hx'

theorem totalW_mergeStep (T : NodeTable) : totalW (mergeStep T) = totalW T := by
  match T with
  | [] => rfl
  | [e] => rfl
  | e0 :: e1 :: rest =>
    have hperm : (mergeStep (e0 :: e1 :: rest)).Perm
        ((e0.1 + e1.1, Node.new_parent e0.2 e1.2) :: rest) :=
      insert_table_entry_perm rest _ _
    rw [totalW, weights, (hperm.map (fun e => e.1)).sum_eq]
    rw [totalW, weights]
    simp [Nat.add_assoc]

theorem totalW_tableAt (T0 : NodeTable) (k : Nat) : totalW (tableAt T0 k) = totalW T0 := by
  induction k with
  | zero => rfl
  | succ k ih => rw [tableAt_succ, totalW_mergeStep, ih]

theorem entry_le_totalW {T : NodeTable} {e : Nat × Node} (h : e ∈ T) : e.1 ≤ totalW T :=
  List.single_le_sum (fun x _ => Nat.zero_le x) e.1 (List.mem_map_of_mem _ h)

theorem TableOK_mergeStep {T : NodeTable} (h : TableOK T) : TableOK (mergeStep T) := by
  match T with
  | [] => exact h
  | [e] => exact h
  | e0 :: e1 :: rest =>
    obtain ⟨hwf, hnd⟩ := h
    have hperm : (mergeStep (e0 :: e1 :: rest)).Perm
        ((e0.1 + e1.1, Node.new_parent e0.2 e1.2) :: rest) :=
      insert_table_entry_perm rest _ _
    constructor
    · intro e he
      rcases mem_mergeStep_iff.mp he with rfl | he'
      · exact WFNode.parent (hwf e0 (by simp)) (hwf e1 (by simp))
      · exact hwf e (List.mem_cons_of_mem _ (List.mem_cons_of_mem _ he'))
    · have hmap := hperm.map (fun e => e.2.chars)
      have hflat := hmap.flatten
      refine hflat.nodup_iff.mpr ?_
      have : (((e0.1 + e1.1, Node.new_parent e0.2 e1.2) :: rest).map
          (fun e => e.2.chars)).flatten =
          ((e0 :: e1 :: rest).map (fun e => e.2.chars)).flatten := by
        simp [chars_new_parent, List.append_assoc]
      rw [this]
      exact hnd

theorem TableOK_tableAt {T0 : NodeTable} (h : TableOK T0) (k : Nat) :
    TableOK (tableAt T0 k) := by
  induction k with
  | zero => exact h
  | succ k ih => rw [tableAt_succ]; exact TableOK_mergeStep ih

theorem tableAt_length (T0 : NodeTable) (h0 : T0 ≠ []) (k : Nat) :
    (tableAt T0 k).length = max (T0.length - k) 1 :=
  iterate_mergeStep_length T0 (by cases T0 with | nil => exact absurd rfl h0 | cons a t => simp) k

theorem finalTable_length (T0 : NodeTable) (h0 : T0 ≠ []) :
    (finalTable T0).length = 1 := by
  rw [finalTable, tableAt_length T0 h0]
  omega

theorem tableAt_eq_final_of_short (T0 : NodeTable) (h0 : T0 ≠ []) (k : Nat)
    (h : (tableAt T0 k).length ≤ 1) : tableAt T0 k = finalTable T0 := by
  rcases le_or_lt k T0.length with hk | hk
  · have hsplit : T0.length = k + (T0.length - k) := by omega
    rw [finalTable, hsplit, tableAt_add]
    exact (Function.iterate_fixed (mergeStep_of_short h) _).symm
  · have hsplit : k = T0.length + (k - T0.length) := by omega
    have hfl : (finalTable T0).length ≤ 1 := le_of_eq (finalTable_length T0 h0)
    rw [hsplit, tableAt_add]
    exact Function.iterate_fixed (mergeStep_of_short hfl) _

/-- Every entry of a process table is either removed (one of the two front
entries) at some later step, or survives into the final table. -/
theorem entry_removed_or_final (T0 : NodeTable) (h0 : T0 ≠ []) :
    ∀ (k : Nat) (u : Nat × Node), u ∈ tableAt T0 k →
      (∃ m, k ≤ m ∧ ∃ e0 e1 rest, tableAt T0 m = e0 :: e1 :: rest ∧ (u = e0 ∨ u = e1)) ∨
      u ∈ finalTable T0 := by
  intro k
  generalize hn : (tableAt T0 k).length = n
  induction n using Nat.strong_induction_on generalizing k with
  | _ n ih =>
    intro u hu
    by_cases hlen : 2 ≤ (tableAt T0 k).length
    · obtain ⟨e0, e1, rest, hshape⟩ : ∃ e0 e1 rest, tableAt T0 k = e0 :: e1 :: rest := by
        cases htab : tableAt T0 k with
        | nil => rw [htab] at hlen; simp at hlen
        | cons a t =>
          cases t with
          | nil => rw [htab] at hlen; simp at hlen
          | cons b t' => exact ⟨a, b, t', rfl⟩
      rw [hshape] at hu
      rcases List.mem_cons.mp hu with hue | hu'
      · exact Or.inl ⟨k, le_refl k, e0, e1, rest, hshape, Or.inl hue⟩
      rcases List.mem_cons.mp hu' with hue | hu''
      · exact Or.inl ⟨k, le_refl k, e0, e1, rest, hshape, Or.inr hue⟩
      · have hnext : u ∈ tableAt T0 (k + 1) := by
          rw [tableAt_succ, hshape]
          exact mem_mergeStep_iff.mpr (Or.inr hu'')
        have hlt : (tableAt T0 (k + 1)).length < n := by
          rw [tableAt_succ, mergeStep_length hlen, hn.symm]
          omega
        rcases ih _ hlt (k + 1) rfl u hnext with ⟨m, hm, hrest⟩ | hfin
        · exact Or.inl ⟨m, by omega, hrest⟩
        · exact Or.inr hfin
    · rw [tableAt_eq_final_of_short T0 h0 k (by omega)] at hu
      exact Or.inr hu

/-- Every entry of a process table occurs somewhere in the final root. -/
theorem entry_occurs (T0 : NodeTable) (h0 : T0 ≠ []) (W : Nat) (R : Node)
    (hfin : finalTable T0 = [(W, R)]) :
    ∀ (k : Nat) (u : Nat × Node), u ∈ tableAt T0 k → ∃ d, OccAt R d u.2 := by
  intro k
  generalize hn : (tableAt T0 k).length = n
  induction n using Nat.strong_induction_on generalizing k with
  | _ n ih =>
    intro u hu
    by_cases hlen : 2 ≤ (tableAt T0 k).length
    · obtain ⟨e0, e1, rest, hshape⟩ : ∃ e0 e1 rest, tableAt T0 k = e0 :: e1 :: rest := by
        cases htab : tableAt T0 k with
        | nil => rw [htab] at hlen; simp at hlen
        | cons a t =>
          cases t with
          | nil => rw [htab] at hlen; simp at hlen
          | cons b t' => exact ⟨a, b, t', rfl⟩
      have hlt : (tableAt T0 (k + 1)).length < n := by
        rw [tableAt_succ, mergeStep_length hlen, hn.symm]
        omega
      have hparent : (e0.1 + e1.1, Node.new_parent e0.2 e1.2) ∈ tableAt T0 (k + 1) := by
        rw [tableAt_succ, hshape]
        exact mem_mergeStep_iff.mpr (Or.inl rfl)
      rw [hshape] at hu
      rcases List.mem_cons.mp hu with hue | hu'
      · rcases ih _ hlt (k + 1) rfl _ hparent with ⟨dP, hdP⟩
        refine ⟨dP + 1, ?_⟩
        rw [hue]
        exact occAt_left_child hdP
      rcases List.mem_cons.mp hu' with hue | hu''
      · rcases ih _ hlt (k + 1) rfl _ hparent with ⟨dP, hdP⟩
        refine ⟨dP + 1, ?_⟩
        rw [hue]
        exact occAt_right_child hdP
      · have hnext : u ∈ tableAt T0 (k + 1) := by
          rw [tableAt_succ, hshape]
          exact mem_mergeStep_iff.mpr (Or.inr hu'')
        exact ih _ hlt (k + 1) rfl u hnext
    · rw [tableAt_eq_final_of_short T0 h0 k (by omega), hfin] at hu
      have hue := List.mem_singleton.mp hu
      refine ⟨0, ?_⟩
      rw [hue]
      exact OccAt.here R

/-- All entries of any table from step `m + 1` on weigh at least the second
removed weight of the merge performed at step `m`. -/
theorem LB_from_merge (T0 : NodeTable) {m : Nat} {e0 e1 : Nat × Node} {rest : NodeTable}
    (hs : TableSorted T0) (hshape : tableAt T0 m = e0 :: e1 :: rest) {i : Nat}
    (hmi : m + 1 ≤ i) : LB (tableAt T0 i) e1.1 := by
  have hsm : TableSorted (tableAt T0 m) := tableAt_sorted hs m
  rw [hshape] at hsm
  have h1 : LB (tableAt T0 (m + 1)) e1.1 := by
    rw [tableAt_succ, hshape]
    exact LB_after_merge hsm
  have hsplit : i = (m + 1) + (i - (m + 1)) := by omega
  rw [hsplit, tableAt_add]
  exact LB_iterate h1 _

/-- A node equal to one of the two children of an occurring parent sits
exactly one level below the parent. -/
theorem child_depth_eq {R : Node} (hWF : WFNode R) (hnd : R.chars.Nodup)
    {a b x : Node} {dP dx : Nat} (hx : x = a ∨ x = b) (hch : x.chars ≠ [])
    (hP : OccAt R dP (Node.new_parent a b)) (hocc : OccAt R dx x) : dx = dP + 1 := by
  rcases hx with h | h
  · have h2 := occAt_left_child hP
    rw [← h] at h2
    exact occAt_unique hWF hnd hch hocc h2
  · have h2 := occAt_right_child hP
    rw [← h] at h2
    exact occAt_unique hWF hnd hch hocc h2

/-- Main monotonicity invariant of the construction: among all entries ever
present in the WorkingSet, a strictly larger weight ends up at most as deep
in the final tree as a strictly smaller one. -/
theorem depth_le_of_weight_gt (T0 : NodeTable) (h0 : T0 ≠ [])
    (hs : TableSorted T0) (hok : TableOK T0) (W : Nat) (R : Node)
    (hfin : finalTable T0 = [(W, R)]) :
    ∀ (dv : Nat) (j k : Nat) (u v : Nat × Node) (du : Nat),
      u ∈ tableAt T0 j → v ∈ tableAt T0 k → v.1 < u.1 →
      OccAt R du u.2 → OccAt R dv v.2 → du ≤ dv := by
  have hokF : TableOK (finalTable T0) := TableOK_tableAt hok T0.length
  rw [hfin] at hokF
  have hWF : WFNode R := hokF.1 (W, R) (List.mem_singleton_self _)
  have hndR : R.chars.Nodup := by
    have := hokF.2
    simpa using this
  have hwfAt : ∀ (k : Nat) (e : Nat × Node), e ∈ tableAt T0 k → WFNode e.2 :=
    fun k e he => (TableOK_tableAt hok k).1 e he
  intro dv
  induction dv using Nat.strong_induction_on with
  | _ dv ih =>
    intro j k u v du hu hv hw hou hov
    have hchu : u.2.chars ≠ [] := chars_ne_nil (hwfAt j u hu)
    have hchv : v.2.chars ≠ [] := chars_ne_nil (hwfAt k v hv)
    rcases entry_removed_or_final T0 h0 k v hv with ⟨m, -, f0, f1, frest, hfshape, hvf⟩ | hvfin
    · -- v is removed at step m
      rcases entry_removed_or_final T0 h0 j u hu with ⟨i, -, g0, g1, grest, hgshape, hug⟩ | hufin
      · -- u is removed at step i
        have hsm : TableSorted (tableAt T0 m) := tableAt_sorted hs m
        have hsi : TableSorted (tableAt T0 i) := tableAt_sorted hs i
        rw [hfshape] at hsm
        rw [hgshape] at hsi
        obtain ⟨hf01, -⟩ := sorted_cons_cons hsm
        obtain ⟨hg01, -⟩ := sorted_cons_cons hsi
        have hueq : u.1 = g0.1 ∨ u.1 = g1.1 := by
          rcases hug with h | h
          · exact Or.inl (by rw [h])
          · exact Or.inr (by rw [h])
        have hveq : v.1 = f0.1 ∨ v.1 = f1.1 := by
          rcases hvf with h | h
          · exact Or.inl (by rw [h])
          · exact Or.inr (by rw [h])
        rcases Nat.lt_trichotomy i m with him | him | him
        · -- u removed strictly earlier: its weight is at most v weight, contradiction
          exfalso
          have hlb : LB (tableAt T0 m) g1.1 := LB_from_merge T0 hs hgshape (by omega)
          have hv1 : g1.1 ≤ v.1 := by
            refine hlb v ?_
            rw [hfshape]
            rcases hvf with h | h
            · rw [h]
              exact List.mem_cons_self _ _
            · rw [h]
              exact List.mem_cons_of_mem _ (List.mem_cons_self _ _)
          rcases hueq with h | h <;> omega
        · -- removed at the same step: siblings, equal depth
          subst him
          rw [hgshape] at hfshape
          injection hfshape with hf0 hrest1
          injection hrest1 with hf1 hrest2
          have hP : (g0.1 + g1.1, Node.new_parent g0.2 g1.2) ∈ tableAt T0 (i + 1) := by
            rw [tableAt_succ, hgshape]
            exact mem_mergeStep_iff.mpr (Or.inl rfl)
          rcases entry_occurs T0 h0 W R hfin (i + 1) _ hP with ⟨dP, hdP⟩
          have hug2 : u.2 = g0.2 ∨ u.2 = g1.2 := by
            rcases hug with h | h
            · exact Or.inl (by rw [h])
            · exact Or.inr (by rw [h])
          have hvg2 : v.2 = g0.2 ∨ v.2 = g1.2 := by
            rcases hvf with h | h
            · exact Or.inl (by rw [h, ← hf0])
            · exact Or.inr (by rw [h, ← hf1])
          have hdu : du = dP + 1 := child_depth_eq hWF hndR hug2 hchu hdP hou
          have hdv : dv = dP + 1 := child_depth_eq hWF hndR hvg2 hchv hdP hov
          omega
        · -- u removed strictly later: compare the parents and recurse
          have hlb : LB (tableAt T0 i) f1.1 := LB_from_merge T0 hs hfshape (by omega)
          have hg0f : f1.1 ≤ g0.1 := by
            refine hlb g0 ?_
            rw [hgshape]
            exact List.mem_cons_self _ _
          have hg1f : f1.1 ≤ g1.1 := by
            refine hlb g1 ?_
            rw [hgshape]
            exact List.mem_cons_of_mem _ (List.mem_cons_self _ _)
          have hPi : (g0.1 + g1.1, Node.new_parent g0.2 g1.2) ∈ tableAt T0 (i + 1) := by
            rw [tableAt_succ, hgshape]
            exact mem_mergeStep_iff.mpr (Or.inl rfl)
          have hPm : (f0.1 + f1.1, Node.new_parent f0.2 f1.2) ∈ tableAt T0 (m + 1) := by
            rw [tableAt_succ, hfshape]
            exact mem_mergeStep_iff.mpr (Or.inl rfl)
          have hwP : f0.1 + f1.1 < g0.1 + g1.1 := by
            by_contra hcon
            push_neg at hcon
            rcases hueq with h1 | h1 <;> rcases hveq with h2 | h2 <;> omega
          rcases entry_occurs T0 h0 W R hfin (i + 1) _ hPi with ⟨dPi, hdPi⟩
          rcases entry_occurs T0 h0 W R hfin (m + 1) _ hPm with ⟨dPm, hdPm⟩
          have hug2 : u.2 = g0.2 ∨ u.2 = g1.2 := by
            rcases hug with h | h
            · exact Or.inl (by rw [h])
            · exact Or.inr (by rw [h])
          have hvf2 : v.2 = f0.2 ∨ v.2 = f1.2 := by
            rcases hvf with h | h
            · exact Or.inl (by rw [h])
            · exact Or.inr (by rw [h])
          have hdu : du = dPi + 1 := child_depth_eq hWF hndR hug2 hchu hdPi hou
          have hdv : dv = dPm + 1 := child_depth_eq hWF hndR hvf2 hchv hdPm hov
          have hrec : dPi ≤ dPm :=
            ih dPm (by omega) (i + 1) (m + 1)
              (g0.1 + g1.1, Node.new_parent g0.2 g1.2)
              (f0.1 + f1.1, Node.new_parent f0.2 f1.2) dPi hPi hPm hwP hdPi hdPm
          omega
      · -- u survives as the root: depth 0
        rw [hfin] at hufin
        have hue := List.mem_singleton.mp hufin
        have hou2 : OccAt R du R := by
          rw [hue] at hou
          exact hou
        have hdu : du = 0 :=
          occAt_unique hWF hndR (chars_ne_nil hWF) hou2 (OccAt.here R)
        omega
    · -- v survives as the root: maximal weight, contradiction
      exfalso
      rw [hfin] at hvfin
      have hve := List.mem_singleton.mp hvfin
      have hWtot : totalW T0 = W := by
        have h1 := totalW_tableAt T0 T0.length
        rw [← finalTable, hfin] at h1
        simpa [totalW, weights] using h1.symm
      have hle : u.1 ≤ totalW T0 := by
        have h2 := entry_le_totalW hu
        rwa [totalW_tableAt] at h2
      have hv1 : v.1 = W := by rw [hve]
      omega

/-! ### Assembling the pipeline -/

theorem Char.toNat_injective {c1 c2 : Char} (h : c1.toNat = c2.toNat) : c1 = c2 :=
  Char.ext (UInt32.ext h)

theorem new_eq (s : List Char) :
    HuffmanTree.new s =
      match run_build_loop (init_table (get_letter_frequencies s)) with
      | .error e => .error e
      | .ok table =>
        match table.head? with
        | none => .error .crash
        | some (_, tree) => convert_table (traverse tree [] Bits.new) := rfl

theorem glf_ne_nil {s : List Char} (h0 : s ≠ []) : get_letter_frequencies s ≠ [] := by
  cases s with
  | nil => exact absurd rfl h0
  | cons c t =>
    intro hglf
    have := glf_mem (List.mem_cons_self c t)
    rw [hglf] at this
    cases this

theorem init_table_length (frequencies : List (Char × Nat)) :
    (init_table frequencies).length = frequencies.length := by
  rw [init_table, List.length_map]
  exact (List.perm_insertionSort _ frequencies).length_eq

theorem init_table_ne_nil {s : List Char} (h0 : s ≠ []) :
    init_table (get_letter_frequencies s) ≠ [] := by
  intro h
  have h1 := init_table_length (get_letter_frequencies s)
  rw [h, List.length_nil] at h1
  exact glf_ne_nil h0 (List.length_eq_zero.mp h1.symm)

theorem mem_init_table {s : List Char} {c : Char} (hc : c ∈ s) :
    (s.count c, Node.new_leaf c) ∈ init_table (get_letter_frequencies s) := by
  rw [init_table]
  have h1 : (c, s.count c) ∈ get_letter_frequencies s := glf_mem hc
  have h2 : (c, s.count c) ∈
      List.insertionSort (fun a b : Char × Nat => a.2 ≤ b.2) (get_letter_frequencies s) :=
    (List.mem_insertionSort _).mpr h1
  exact List.mem_map_of_mem _ h2

theorem flatten_singleton_map {β : Type} (f : β → Char) (l : List β) :
    ((l.map (fun e => [f e])).flatten) = l.map f := by
  induction l with
  | nil => rfl
  | cons e t ih => simp [ih]

theorem init_table_TableOK (s : List Char) :
    TableOK (init_table (get_letter_frequencies s)) := by
  constructor
  · intro e he
    rw [init_table] at he
    rcases List.mem_map.mp he with ⟨f, -, hf⟩
    rw [← hf]
    exact WFNode.leaf f.1
  · rw [init_table, List.map_map]
    have hcomp : ((fun e : Nat × Node => e.2.chars) ∘
        (fun e : Char × Nat => (e.2, Node.new_leaf e.1))) =
        fun e : Char × Nat => [e.1] := by
      funext e
      rfl
    rw [hcomp, flatten_singleton_map (fun e : Char × Nat => e.1)]
    have hperm := (List.perm_insertionSort (fun a b : Char × Nat => a.2 ≤ b.2)
      (get_letter_frequencies s)).map (fun e => e.1)
    refine hperm.nodup_iff.mpr ?_
    have hkd := glf_keysDistinct s
    show List.Pairwise (fun a b => a ≠ b)
      ((get_letter_frequencies s).map (fun e => e.1))
    rw [List.pairwise_map]
    refine hkd.imp ?_
    intro a b hab
    exact fun h => hab h

/-- The multiset of characters across the table is preserved by a merge. -/
theorem charsFlatten_mergeStep (T : NodeTable) :
    ((mergeStep T).map (fun e => e.2.chars)).flatten.Perm
      ((T.map (fun e => e.2.chars)).flatten) := by
  match T with
  | [] => exact List.Perm.refl _
  | [e] => exact List.Perm.refl _
  | e0 :: e1 :: rest =>
    have hperm : (mergeStep (e0 :: e1 :: rest)).Perm
        ((e0.1 + e1.1, Node.new_parent e0.2 e1.2) :: rest) :=
      insert_table_entry_perm rest _ _
    have h1 := (hperm.map (fun e => e.2.chars)).flatten
    refine h1.trans ?_
    have : (((e0.1 + e1.1, Node.new_parent e0.2 e1.2) :: rest).map
        (fun e => e.2.chars)).flatten =
        ((e0 :: e1 :: rest).map (fun e => e.2.chars)).flatten := by
      simp [chars_new_parent, List.append_assoc]
    rw [this]

theorem charsFlatten_tableAt (T0 : NodeTable) (k : Nat) :
    ((tableAt T0 k).map (fun e => e.2.chars)).flatten.Perm
      ((T0.map (fun e => e.2.chars)).flatten) := by
  induction k with
  | zero => exact List.Perm.refl _
  | succ k ih =>
    rw [tableAt_succ]
    exact (charsFlatten_mergeStep _).trans ih

theorem new_unpack {s : List Char} (h0 : s ≠ []) :
    ∃ (W : Nat) (R : Node),
      finalTable (init_table (get_letter_frequencies s)) = [(W, R)] ∧
      HuffmanTree.new s = convert_table (traverse R [] Bits.new) := by
  have hT0 := init_table_ne_nil h0
  have hlen := finalTable_length (init_table (get_letter_frequencies s)) hT0
  obtain ⟨W, R, he⟩ : ∃ W R,
      finalTable (init_table (get_letter_frequencies s)) = [(W, R)] := by
    cases hf : finalTable (init_table (get_letter_frequencies s)) with
    | nil => rw [hf] at hlen; simp at hlen
    | cons a t =>
      cases t with
      | nil => exact ⟨a.1, a.2, rfl⟩
      | cons b t' => rw [hf] at hlen; simp at hlen
  have hrun : run_build_loop (init_table (get_letter_frequencies s)) = .ok [(W, R)] := by
    rw [run_build_loop_eq]
    exact congrArg Except.ok he
  refine ⟨W, R, he, ?_⟩
  rw [new_eq, hrun]
  rfl

theorem init_table_charsFlatten (s : List Char) :
    ((init_table (get_letter_frequencies s)).map (fun e => e.2.chars)).flatten =
      (List.insertionSort (fun a b : Char × Nat => a.2 ≤ b.2)
        (get_letter_frequencies s)).map (fun e => e.1) := by
  rw [init_table, List.map_map]
  have hcomp : ((fun e : Nat × Node => e.2.chars) ∘
      (fun e : Char × Nat => (e.2, Node.new_leaf e.1))) =
      fun e : Char × Nat => [e.1] := by
    funext e
    rfl
  rw [hcomp, flatten_singleton_map (fun e : Char × Nat => e.1)]

theorem final_root_facts {s : List Char} (_h0 : s ≠ []) {W : Nat} {R : Node}
    (hfin : finalTable (init_table (get_letter_frequencies s)) = [(W, R)]) :
    WFNode R ∧ R.chars.Nodup ∧ (∀ c, c ∈ R.chars ↔ c ∈ s) := by
  have hokF : TableOK (finalTable (init_table (get_letter_frequencies s))) := by
    rw [finalTable]
    exact TableOK_tableAt (init_table_TableOK s) _
  rw [hfin] at hokF
  have hWF : WFNode R := hokF.1 (W, R) (List.mem_singleton_self _)
  have hnd : R.chars.Nodup := by
    have := hokF.2
    simpa using this
  refine ⟨hWF, hnd, ?_⟩
  intro c
  have hperm := charsFlatten_tableAt (init_table (get_letter_frequencies s))
    (init_table (get_letter_frequencies s)).length
  rw [← finalTable, hfin, init_table_charsFlatten] at hperm
  have hR : c ∈ R.chars ↔
      c ∈ (List.insertionSort (fun a b : Char × Nat => a.2 ≤ b.2)
        (get_letter_frequencies s)).map (fun e => e.1) := by
    rw [← hperm.mem_iff]
    simp
  rw [hR]
  have hsortperm := (List.perm_insertionSort (fun a b : Char × Nat => a.2 ≤ b.2)
    (get_letter_frequencies s)).map (fun e => e.1)
  rw [hsortperm.mem_iff]
  constructor
  · intro hc
    rcases List.mem_map.mp hc with ⟨e, he, hec⟩
    have : e = (e.1, e.2) := rfl
    rw [this, hec] at he
    exact (glf_count_pos he).2.2
  · intro hc
    exact List.mem_map_of_mem _ (glf_mem hc)

theorem lookupGet_inv {L : List (Option Bits)} {c : Char} {b : Bits}
    (h : lookupGet L c = some b) : L.get? c.toNat = some (some b) := by
  rw [lookupGet] at h
  cases hg : L.get? c.toNat with
  | none => rw [hg] at h; cases h
  | some o =>
    cases o with
    | none => rw [hg] at h; cases h
    | some b' => rw [hg] at h; injection h with h'; rw [h']

theorem lookupGet_of_get? {L : List (Option Bits)} {c : Char} {b : Bits}
    (h : L.get? c.toNat = some (some b)) : lookupGet L c = some b := by
  rw [lookupGet, h]

/-- Inversion of a successful construction: a code found in the lookup
table is one of the codes the traversal of the final root generated. -/
theorem lookup_to_paths {s : List Char} {L : List (Option Bits)} {W : Nat} {R : Node}
    (hfin : finalTable (init_table (get_letter_frequencies s)) = [(W, R)])
    (hWF : WFNode R)
    (hnew : HuffmanTree.new s = .ok L) {c : Char} {b : Bits}
    (hlk : lookupGet L c = some b) : (c, b) ∈ paths R Bits.new := by
  have hrun : run_build_loop (init_table (get_letter_frequencies s)) = .ok [(W, R)] := by
    rw [run_build_loop_eq]
    exact congrArg Except.ok hfin
  rw [new_eq, hrun] at hnew
  have hconv : convert_table (traverse R [] Bits.new) = .ok L := hnew
  cases hmk : maxKey (traverse R [] Bits.new) with
  | none => rw [convert_table, hmk] at hconv; cases hconv
  | some M =>
    rw [convert_table, hmk] at hconv
    have hL : (traverse R [] Bits.new).foldl
        (fun out e => out.set e.1.toNat (some e.2))
        (List.replicate (M.toNat + 1) (Option.none : Option Bits)) = L := by
      injection hconv with h'
    have hget := lookupGet_inv hlk
    rw [← hL] at hget
    rcases foldl_set_inv _ _ _ _ hget with ⟨c', hc', hci⟩ | hinit
    · have hcc : c' = c := Char.toNat_injective hci
      rw [hcc] at hc'
      rw [traverse_eq_foldl hWF] at hc'
      rcases foldl_hmInsert_mem hc' with hp | hemp
      · exact hp
      · cases hemp
    · rw [List.get?_eq_getElem?, List.getElem?_replicate] at hinit
      by_cases hlt : c.toNat < M.toNat + 1
      · rw [if_pos hlt] at hinit
        cases hinit
      · rw [if_neg hlt] at hinit
        cases hinit

/-- Every character of the example text has a code in the lookup table. -/
theorem lookup_present {s : List Char} {L : List (Option Bits)} {W : Nat} {R : Node}
    (h0 : s ≠ [])
    (hfin : finalTable (init_table (get_letter_frequencies s)) = [(W, R)])
    (hWF : WFNode R)
    (hnew : HuffmanTree.new s = .ok L) {c : Char}
    (hc : c ∈ s) : ∃ b, lookupGet L c = some b := by
  -- the leaf of `c` is in the initial table, so `c` is a character of `R`
  have hleaf : (s.count c, Node.new_leaf c) ∈
      tableAt (init_table (get_letter_frequencies s)) 0 := mem_init_table hc
  rcases entry_occurs _ (init_table_ne_nil h0) W R hfin 0 _ hleaf with ⟨d, hocc⟩
  have hcR : c ∈ R.chars := by
    have := occAt_chars_subset hWF hocc c
    rw [chars_new_leaf] at this
    exact this (List.mem_singleton_self c)
  -- hence some code for `c` is generated and survives in the hash map
  obtain ⟨p, hp⟩ : ∃ p, (c, p) ∈ paths R Bits.new := by
    rw [← chars_eq_paths_keys hWF Bits.new] at hcR
    rcases List.mem_map.mp hcR with ⟨e, he, hec⟩
    exact ⟨e.2, by rw [← hec]; exact he⟩
  have hsome : (alookup (traverse R [] Bits.new) c).isSome := by
    rw [traverse_eq_foldl hWF]
    exact (foldl_hmInsert_isSome _ [] c).mpr (Or.inl ⟨(c, p), hp, rfl⟩)
  rcases Option.isSome_iff_exists.mp hsome with ⟨v, hv⟩
  have hmem : (c, v) ∈ traverse R [] Bits.new := alookup_mem hv
  -- the dense table has a written slot at the code point of `c`
  have hrun : run_build_loop (init_table (get_letter_frequencies s)) = .ok [(W, R)] := by
    rw [run_build_loop_eq]
    exact congrArg Except.ok hfin
  rw [new_eq, hrun] at hnew
  have hconv : convert_table (traverse R [] Bits.new) = .ok L := hnew
  rcases maxKey_ge hmem with ⟨M, hM, hle⟩
  rw [convert_table, hM] at hconv
  have hL : (traverse R [] Bits.new).foldl
      (fun out e => out.set e.1.toNat (some e.2))
      (List.replicate (M.toNat + 1) (Option.none : Option Bits)) = L := by
    injection hconv with h'
  have hslot := foldl_set_present (traverse R [] Bits.new)
    (List.replicate (M.toNat + 1) (Option.none : Option Bits)) c.toNat
    (by rw [List.length_replicate]; omega)
    (Or.inl ⟨c, v, hmem, rfl⟩)
  rcases hslot with ⟨b, hb⟩
  rw [hL] at hb
  exact ⟨b, lookupGet_of_get? hb⟩

/-- A character that does not occur in the example text has no code. -/
theorem lookup_none {s : List Char} {L : List (Option Bits)} {W : Nat} {R : Node}
    (h0 : s ≠ [])
    (hfin : finalTable (init_table (get_letter_frequencies s)) = [(W, R)])
    (hnew : HuffmanTree.new s = .ok L) {c : Char}
    (hc : c ∉ s) : lookupGet L c = none := by
  obtain ⟨hWF, -, hiff⟩ := final_root_facts h0 hfin
  cases hlk : lookupGet L c with
  | none => rfl
  | some b =>
    exfalso
    have hp := lookup_to_paths hfin hWF hnew hlk
    have hcR : c ∈ R.chars := by
      rw [← chars_eq_paths_keys hWF Bits.new]
      exact List.mem_map_of_mem _ hp
    exact hc ((hiff c).mp hcR)

theorem new_nil : HuffmanTree.new [] = .error .crash := rfl

theorem new_ok_ne_nil {s : List Char} {L : List (Option Bits)}
    (hnew : HuffmanTree.new s = .ok L) : s ≠ [] := by
  intro h
  rw [h, new_nil] at hnew
  cases hnew

/-! ### Single-symbol texts -/

theorem foldl_freqStep_replicate (c : Char) :
    ∀ (n k : Nat), (List.replicate n c).foldl freqStep [(c, k)] = [(c, k + n)] := by
  intro n
  induction n with
  | zero => intro k; simp
  | succ n ih =>
    intro k
    rw [List.replicate_succ, List.foldl_cons]
    have hstep : freqStep [(c, k)] c = [(c, k + 1)] := by
      have hfind : (List.find? (fun e => e.1 == c) [(c, k)]).isSome := by
        rw [List.find?_cons_of_pos _ (by simp)]
        rfl
      rw [freqStep, if_pos hfind]
      simp
    rw [hstep, ih (k + 1)]
    have : k + 1 + n = k + (n + 1) := by omega
    rw [this]

theorem glf_replicate (c : Char) (n : Nat) (hn : 0 < n) :
    get_letter_frequencies (List.replicate n c) = [(c, n)] := by
  obtain ⟨m, rfl⟩ : ∃ m, n = m + 1 := ⟨n - 1, by omega⟩
  have hrep : List.replicate (m + 1) c = c :: List.replicate m c := List.replicate_succ c m
  rw [get_letter_frequencies_eq_foldl, hrep, List.foldl_cons]
  have h1 : freqStep [] c = [(c, 1)] := rfl
  rw [h1, foldl_freqStep_replicate c m 1]
  have : 1 + m = m + 1 := by omega
  rw [this]

theorem new_single (c : Char) (n : Nat) (hn : 0 < n) :
    run_build_loop (init_table (get_letter_frequencies (List.replicate n c))) =
      .ok [(n, Node.new_leaf c)] ∧
    HuffmanTree.new (List.replicate n c) =
      .ok ((List.replicate (c.toNat + 1) (Option.none : Option Bits)).set c.toNat
        (some Bits.new)) := by
  have hglf := glf_replicate c n hn
  have hinit : init_table (get_letter_frequencies (List.replicate n c)) =
      [(n, Node.new_leaf c)] := by
    rw [hglf]
    rfl
  constructor
  · rw [hinit]
    rfl
  · rw [new_eq, hinit]
    rfl

theorem encode_loop_single (L : List (Option Bits)) (c : Char)
    (hc : lookupGet L c = some Bits.new) :
    ∀ (m : Nat) (acc : Bits), encode_loop L (List.replicate m c) acc = .ok acc := by
  intro m
  induction m with
  | zero => intro acc; rfl
  | succ m ih =>
    intro acc
    rw [List.replicate_succ, encode_loop, encode_character_eq, hc]
    show encode_loop L (List.replicate m c) (acc.append Bits.new) = Except.ok acc
    have happ : acc.append Bits.new = acc := rfl
    rw [happ]
    exact ih acc

/-! ### The claims -/

/-- C1: on the empty input string the frequency counter returns an empty
table, but `HuffmanTree::new` then panics (out-of-bounds `table[0]`,
modelled by `crash`) instead of returning an error result: the claim's
"returns an error result rather than succeeding or crashing" does not hold
of the code. -/
theorem c1_empty_input :
    get_letter_frequencies ([] : List Char) = [] ∧
    HuffmanTree.new [] = .error .crash :=
  ⟨rfl, rfl⟩

/-- C2: in the lookup table produced by a successful `HuffmanTree::new`,
the codes of two distinct present characters are never in the prefix
relation, in either direction. -/
theorem c2_prefix_free {s : List Char} {L : List (Option Bits)} {c1 c2 : Char}
    {b1 b2 : Bits} (hnew : HuffmanTree.new s = .ok L) (hne : c1 ≠ c2)
    (h1 : lookupGet L c1 = some b1) (h2 : lookupGet L c2 = some b2) :
    ¬IsPref b1.collection b2.collection ∧ ¬IsPref b2.collection b1.collection := by
  have h0 := new_ok_ne_nil hnew
  obtain ⟨W, R, hfin, -⟩ := new_unpack h0
  obtain ⟨hWF, -, -⟩ := final_root_facts h0 hfin
  have hp1 := lookup_to_paths hfin hWF hnew h1
  have hp2 := lookup_to_paths hfin hWF hnew h2
  have hpw := paths_pairwise hWF Bits.new
  have hsym : Symmetric PrefFree := fun x y h => ⟨h.2, h.1⟩
  have hne2 : (c1, b1) ≠ (c2, b2) := by
    intro h
    injection h with ha hb
    exact hne ha
  exact List.Pairwise.forall hsym hpw hp1 hp2 hne2

theorem c2_witness :
    ¬IsPref [false] [true] ∧ ¬IsPref [true] [false] :=
  @c2_prefix_free ['a', 'b']
    (List.replicate 97 (Option.none : Option Bits) ++
      [some (Bits.mk [false]), some (Bits.mk [true])])
    'a' 'b' (Bits.mk [false]) (Bits.mk [true]) rfl (by decide) rfl rfl

/-- C3: encoding any text whose characters all occur in the example text
succeeds, and the produced bit length is the sum over the input characters
of the code lengths from the lookup table. -/
theorem c3_length_conservation {s t : List Char} {L : List (Option Bits)}
    (hnew : HuffmanTree.new s = .ok L) (hsub : ∀ c ∈ t, c ∈ s) :
    ∃ b, encode L t = .ok b ∧
      b.len = (t.map (fun c => ((lookupGet L c).map Bits.len).getD 0)).sum := by
  have h0 := new_ok_ne_nil hnew
  obtain ⟨W, R, hfin, -⟩ := new_unpack h0
  obtain ⟨hWF, -, -⟩ := final_root_facts h0 hfin
  have hall : ∀ c ∈ t, (lookupGet L c).isSome := by
    intro c hc
    rcases lookup_present h0 hfin hWF hnew (hsub c hc) with ⟨b, hb⟩
    rw [hb]
    rfl
  rcases encode_loop_ok hall Bits.new with ⟨b, hb, hlen⟩
  refine ⟨b, hb, ?_⟩
  rw [hlen]
  have hz : Bits.new.len = 0 := rfl
  omega

theorem c3_witness :
    ∃ b, encode (List.replicate 97 (Option.none : Option Bits) ++
        [some (Bits.mk [false]), some (Bits.mk [true])]) ['a', 'b', 'a'] = .ok b ∧
      b.len = ((['a', 'b', 'a'] : List Char).map (fun c =>
        ((lookupGet (List.replicate 97 (Option.none : Option Bits) ++
          [some (Bits.mk [false]), some (Bits.mk [true])]) c).map Bits.len).getD 0)).sum :=
  @c3_length_conservation ['a', 'b'] ['a', 'b', 'a'] _ rfl (by decide)

/-- C4 (amended): encoding through a built lookup table succeeds exactly
when every input character occurs in the example text, and any failure is
the symbol-not-found error; however that error is the fixed message
`"Character not found in lookup table"` and does not name the missing
symbol. -/
theorem c4_encode_error_iff {s t : List Char} {L : List (Option Bits)}
    (hnew : HuffmanTree.new s = .ok L) :
    ((∃ b, encode L t = .ok b) ↔ ∀ c ∈ t, c ∈ s) ∧
    (∀ e, encode L t = .error e → e = .message symbolNotFoundMsg) := by
  have h0 := new_ok_ne_nil hnew
  obtain ⟨W, R, hfin, -⟩ := new_unpack h0
  obtain ⟨hWF, -, -⟩ := final_root_facts h0 hfin
  have hok : (∀ c ∈ t, c ∈ s) → ∃ b, encode L t = .ok b := by
    intro hsub
    have hall : ∀ c ∈ t, (lookupGet L c).isSome := by
      intro c hc
      rcases lookup_present h0 hfin hWF hnew (hsub c hc) with ⟨b, hb⟩
      rw [hb]
      rfl
    rcases encode_loop_ok hall Bits.new with ⟨b, hb, -⟩
    exact ⟨b, hb⟩
  have herr : ¬(∀ c ∈ t, c ∈ s) →
      encode L t = .error (.message symbolNotFoundMsg) := by
    intro hnot
    push_neg at hnot
    rcases hnot with ⟨c, hct, hcs⟩
    exact encode_loop_err ⟨c, hct, lookup_none h0 hfin hnew hcs⟩ Bits.new
  constructor
  · constructor
    · rintro ⟨b, hb⟩
      by_contra hnot
      rw [herr hnot] at hb
      cases hb
    · exact hok
  · intro e he
    by_cases hall : ∀ c ∈ t, c ∈ s
    · rcases hok hall with ⟨b, hb⟩
      rw [hb] at he
      cases he
    · rw [herr hall] at he
      injection he with he'
      exact he'.symm

theorem c4_witness :
    ((∃ b, encode (List.replicate 97 (Option.none : Option Bits) ++
        [some (Bits.mk [false]), some (Bits.mk [true])]) ['a', 'c'] = .ok b) ↔
      ∀ c ∈ (['a', 'c'] : List Char), c ∈ (['a', 'b'] : List Char)) ∧
    (∀ e, encode (List.replicate 97 (Option.none : Option Bits) ++
        [some (Bits.mk [false]), some (Bits.mk [true])]) ['a', 'c'] = .error e →
      e = .message symbolNotFoundMsg) :=
  @c4_encode_error_iff ['a', 'b'] ['a', 'c'] _ rfl

/-- C4, refutation of the claim as stated: the symbol-not-found error does
not name the missing symbol; two encodings failing on the different
missing symbols `'c'` and `'z'` produce the identical error value, the
fixed message string of the code. -/
theorem c4_counterexample :
    HuffmanTree.new ['a', 'b'] = .ok (List.replicate 97 (Option.none : Option Bits) ++
      [some (Bits.mk [false]), some (Bits.mk [true])]) ∧
    encode (List.replicate 97 (Option.none : Option Bits) ++
      [some (Bits.mk [false]), some (Bits.mk [true])]) ['c'] =
      .error (.message symbolNotFoundMsg) ∧
    encode (List.replicate 97 (Option.none : Option Bits) ++
      [some (Bits.mk [false]), some (Bits.mk [true])]) ['z'] =
      .error (.message symbolNotFoundMsg) :=
  ⟨rfl, rfl, rfl⟩

/-- C5: in any built lookup table, a character occurring strictly more
often in the example text never receives a strictly longer code. -/
theorem c5_weight_monotone {s : List Char} {L : List (Option Bits)} {c1 c2 : Char}
    {b1 b2 : Bits} (hnew : HuffmanTree.new s = .ok L)
    (h1 : lookupGet L c1 = some b1) (h2 : lookupGet L c2 = some b2)
    (hgt : s.count c2 < s.count c1) : b1.len ≤ b2.len := by
  have h0 := new_ok_ne_nil hnew
  obtain ⟨W, R, hfin, -⟩ := new_unpack h0
  obtain ⟨hWF, -, hiff⟩ := final_root_facts h0 hfin
  have hp1 := lookup_to_paths hfin hWF hnew h1
  have hp2 := lookup_to_paths hfin hWF hnew h2
  have hc1s : c1 ∈ s := by
    refine (hiff c1).mp ?_
    rw [← chars_eq_paths_keys hWF Bits.new]
    exact List.mem_map_of_mem _ hp1
  have hc2s : c2 ∈ s := by
    refine (hiff c2).mp ?_
    rw [← chars_eq_paths_keys hWF Bits.new]
    exact List.mem_map_of_mem _ hp2
  rcases paths_occAt hWF Bits.new hp1 with ⟨d1, hocc1, hlen1⟩
  rcases paths_occAt hWF Bits.new hp2 with ⟨d2, hocc2, hlen2⟩
  have hu := mem_init_table hc1s
  have hv := mem_init_table hc2s
  have hmain := depth_le_of_weight_gt (init_table (get_letter_frequencies s))
    (init_table_ne_nil h0) (init_table_sorted _) (init_table_TableOK s) W R hfin
    d2 0 0 (s.count c1, Node.new_leaf c1) (s.count c2, Node.new_leaf c2) d1
    hu hv hgt hocc1 hocc2
  have hnl : Bits.new.len = 0 := rfl
  omega

theorem c5_witness : (Bits.mk [true]).len ≤ (Bits.mk [false]).len :=
  @c5_weight_monotone ['a', 'a', 'b']
    (List.replicate 97 (Option.none : Option Bits) ++
      [some (Bits.mk [true]), some (Bits.mk [false])])
    'a' 'b' (Bits.mk [true]) (Bits.mk [false]) rfl rfl rfl (by decide)

/-- C6 (amended): the WorkingSet is sorted ascending by weight throughout
construction: `init_table` sorts, `insert_table_entry` preserves
sortedness, and every intermediate table of the loop is sorted; however
the binary search does not put an equal-weight entry at the smallest valid
position, so equal-weight entries need not retain arrival order. -/
theorem c6_sorted_invariant :
    (∀ frequencies : List (Char × Nat), TableSorted (init_table frequencies)) ∧
    (∀ (table : NodeTable) (num : Nat) (node : Node), TableSorted table →
      TableSorted (insert_table_entry table num node)) ∧
    (∀ (s : List Char) (k : Nat),
      TableSorted (tableAt (init_table (get_letter_frequencies s)) k)) := by
  refine ⟨init_table_sorted, ?_, ?_⟩
  · intro table num node hs
    exact insert_table_entry_sorted num node hs
  · intro s k
    exact tableAt_sorted (init_table_sorted _) k

theorem c6_witness :
    TableSorted (insert_table_entry [(1, Node.new_leaf 'a')] 2 (Node.new_leaf 'b')) :=
  c6_sorted_invariant.2.1 [(1, Node.new_leaf 'a')] 2 (Node.new_leaf 'b')
    (List.sorted_singleton 1)

/-- C6, refutation of the claim as stated: inserting a weight-1 entry into
a table of three weight-1 entries puts it at index 1 (the binary search
midpoint), not after the equal-weight entries (arrival order) and not at
the smallest valid position, index 0. -/
theorem c6_counterexample :
    insert_table_entry
        [(1, Node.new_leaf 'a'), (1, Node.new_leaf 'b'), (1, Node.new_leaf 'c')] 1
        (Node.new_leaf 'd') =
      [(1, Node.new_leaf 'a'), (1, Node.new_leaf 'd'), (1, Node.new_leaf 'b'),
        (1, Node.new_leaf 'c')] ∧
    insert_table_entry
        [(1, Node.new_leaf 'a'), (1, Node.new_leaf 'b'), (1, Node.new_leaf 'c')] 1
        (Node.new_leaf 'd') ≠
      (1, Node.new_leaf 'd') ::
        [(1, Node.new_leaf 'a'), (1, Node.new_leaf 'b'), (1, Node.new_leaf 'c')] := by
  refine ⟨rfl, ?_⟩
  intro h
  rw [show insert_table_entry
      [(1, Node.new_leaf 'a'), (1, Node.new_leaf 'b'), (1, Node.new_leaf 'c')] 1
      (Node.new_leaf 'd') =
    [(1, Node.new_leaf 'a'), (1, Node.new_leaf 'd'), (1, Node.new_leaf 'b'),
      (1, Node.new_leaf 'c')] from rfl] at h
  injection h with hhead htail
  injection hhead with h1 h2
  rw [Node.new_leaf, Node.new_leaf] at h2
  injection h2 with h3 h4 h5
  injection h5 with h6
  exact absurd h6 (by decide)

/-- C7: a single-symbol text yields a single-leaf root, the symbol's code
is empty (length 0), and encoding any repetition of that symbol yields the
empty bit sequence. -/
theorem c7_single_symbol (c : Char) (n m : Nat) (hn : 0 < n) :
    run_build_loop (init_table (get_letter_frequencies (List.replicate n c))) =
      .ok [(n, Node.new_leaf c)] ∧
    ∃ L, HuffmanTree.new (List.replicate n c) = .ok L ∧
      lookupGet L c = some Bits.new ∧
      (lookupGet L c).map Bits.len = some 0 ∧
      encode L (List.replicate m c) = .ok Bits.new := by
  obtain ⟨hrun, hnew⟩ := new_single c n hn
  refine ⟨hrun, _, hnew, ?_, ?_, ?_⟩
  · refine lookupGet_of_get? ?_
    rw [List.get?_eq_getElem?]
    exact List.getElem?_set_self (by rw [List.length_replicate]; omega)
  · rw [lookupGet_of_get? (by
      rw [List.get?_eq_getElem?]
      exact List.getElem?_set_self (by rw [List.length_replicate]; omega))]
    rfl
  · exact encode_loop_single _ c (lookupGet_of_get? (by
      rw [List.get?_eq_getElem?]
      exact List.getElem?_set_self (by rw [List.length_replicate]; omega))) m Bits.new

theorem c7_witness :
    run_build_loop (init_table (get_letter_frequencies (List.replicate 10 'x'))) =
      .ok [(10, Node.new_leaf 'x')] ∧
    ∃ L, HuffmanTree.new (List.replicate 10 'x') = .ok L ∧
      lookupGet L 'x' = some Bits.new ∧
      (lookupGet L 'x').map Bits.len = some 0 ∧
      encode L (List.replicate 4 'x') = .ok Bits.new :=
  c7_single_symbol 'x' 10 4 (by decide)

/-- C8: `get_letter_frequencies` maps exactly the characters of the input
to their occurrence counts; every recorded weight is positive, and the
empty input yields the empty table. -/
theorem c8_letter_frequencies (s : List Char) :
    get_letter_frequencies ([] : List Char) = [] ∧
    (∀ c, alookup (get_letter_frequencies s) c =
      if c ∈ s then some (s.count c) else none) ∧
    (∀ c k, (c, k) ∈ get_letter_frequencies s → 0 < k ∧ k = s.count c ∧ c ∈ s) :=
  ⟨rfl, glf_lookup s, fun _ _ h => glf_count_pos h⟩

theorem c8_witness :
    alookup (get_letter_frequencies ['a', 'b', 'a']) 'a' =
      if 'a' ∈ (['a', 'b', 'a'] : List Char)
      then some ((['a', 'b', 'a'] : List Char).count 'a') else none :=
  (c8_letter_frequencies ['a', 'b', 'a']).2.1 'a'

/-- C9: appending one bit collection to another concatenates the contents
in order (the argument is only read, never modified), and the lengths
add. -/
theorem c9_append (a b : Bits) :
    (a.append b).collection = a.collection ++ b.collection ∧
    (a.append b).len = a.len + b.len :=
  ⟨Bits.append_collection a b, Bits.len_append a b⟩

/-- C10: `build_tree` returns the InsufficientNodes error exactly on
tables with fewer than two entries; the construction loop never produces
it (it always succeeds, returning the iterated merge), so `HuffmanTree::new`
never returns that error on any input. -/
theorem c10_insufficient_nodes :
    (∀ table : NodeTable,
      build_tree table = .error (.message insufficientNodesMsg) ↔ table.length < 2) ∧
    (∀ (fuel : Nat) (table : NodeTable),
      build_loop fuel table = .ok (mergeStep^[fuel] table)) ∧
    (∀ s : List Char, HuffmanTree.new s ≠ .error (.message insufficientNodesMsg)) := by
  refine ⟨build_tree_error_iff, build_loop_eq_iterate, ?_⟩
  intro s h
  by_cases h0 : s = []
  · rw [h0, new_nil] at h
    injection h with h'
    cases h'
  · obtain ⟨W, R, -, hnew⟩ := new_unpack h0
    rw [hnew] at h
    cases hmk : maxKey (traverse R [] Bits.new) with
    | none =>
      rw [convert_table, hmk] at h
      injection h with h'
      cases h'
    | some M =>
      rw [convert_table, hmk] at h
      cases h

theorem c10_witness :
    build_tree ([] : NodeTable) = .error (.message insufficientNodesMsg) :=
  (c10_insufficient_nodes.1 []).mpr (by decide)

end Huffman
